import Mathlib

/-!
# http_tracer: the tracing HTTP client of package `request`

A shallow embedding of `src/request/request.go`.  Go values become Lean values,
pointer receivers become explicit state passing, and the calls the package makes
into the Go standard library (clock, network round trip, JSON, URL parsing) are
either modelled here or taken as parameters, as noted at each definition.
-/

namespace request

/-! ## Time

A Go `time.Time` is held as an `Int`: the number of nanoseconds from the zero instant
(January 1, year 1, 00:00:00 UTC), so the zero value of the type is `0`.  A Go
`time.Duration` is held as an `Int` too: a number of nanoseconds, which Go keeps in an
int64. -/

/-- Smallest `time.Duration`, `-1 << 63`. -/
def minDuration : Int := -(2 ^ 63)

/-- Largest `time.Duration`, `1<<63 - 1`. -/
def maxDuration : Int := 2 ^ 63 - 1

/-- Go `Time.IsZero`: whether the time is the zero instant. -/
def Time.IsZero (t : Int) : Bool := decide (t = 0)

/-- Go `Time.Sub`: the duration `t - u`, saturated to the largest or smallest
duration when the difference does not fit an int64. -/
def Time.Sub (t u : Int) : Int :=
  if t - u < minDuration then minDuration
  else if maxDuration < t - u then maxDuration
  else t - u

/-! ## Trace state (`traceTime`, `traceStat`) and the lifecycle hooks -/

/-- The five timestamp slots, `type traceTime struct`. -/
structure traceTime where
  dnsStart : Int
  dnsDone : Int
  gotConn : Int
  connDone : Int
  transferStart : Int
  deriving DecidableEq, Repr

/-- The zero value `&traceTime{}` that `withHttpTrace` installs. -/
def traceTime.zero : traceTime :=
  { dnsStart := 0, dnsDone := 0, gotConn := 0, connDone := 0, transferStart := 0 }

/-- The published record, `type traceStat struct`; the durations are stored as the
strings `Duration.String()` returns. -/
structure traceStat where
  Status : Int
  DNSLookup : String
  TCPConnection : String
  TLSHandshake : String
  ServerProcessing : String
  ContentTransfer : String
  Total : String
  deriving DecidableEq, Repr

/-- The zero value `&traceStat{}`. -/
def traceStat.zero : traceStat :=
  { Status := 0, DNSLookup := "", TCPConnection := "", TLSHandshake := "",
    ServerProcessing := "", ContentTransfer := "", Total := "" }

/-- One delivery of a hook of the `httptrace.ClientTrace` built by `withHttpTrace`.
`now` is the value `time.Now()` has when the hook runs; `failed` says that
`ConnectDone` was handed a non-nil error. -/
inductive HookEvent where
  | DNSStart (now : Int)
  | DNSDone (now : Int)
  | ConnectStart (now : Int)
  | ConnectDone (failed : Bool) (now : Int)
  | GotConn (now : Int)
  | GotFirstResponseByte (now : Int)
  deriving DecidableEq, Repr

/-- The clock reading carried by a hook event. -/
def HookEvent.now : HookEvent → Int
  | .DNSStart n => n
  | .DNSDone n => n
  | .ConnectStart n => n
  | .ConnectDone _ n => n
  | .GotConn n => n
  | .GotFirstResponseByte n => n

/-- The closures of `withHttpTrace` (request.go lines 40-65), applied to the shared
`traceTime`.  `none` is the process exit of `log.Fatalf` in `ConnectDone`. -/
def traceHook (tt : traceTime) : HookEvent → Option traceTime
  | .DNSStart now => some { tt with dnsStart := now }
  | .DNSDone now => some { tt with dnsDone := now }
  | .ConnectStart now =>
      if Time.IsZero tt.dnsDone then some { tt with dnsDone := now } else some tt
  | .ConnectDone failed now =>
      if failed then none else some { tt with connDone := now }
  | .GotConn now => some { tt with gotConn := now }
  | .GotFirstResponseByte now => some { tt with transferStart := now }

/-- The hooks delivered during one network call, run in order. -/
def runHooks : traceTime → List HookEvent → Option traceTime
  | tt, [] => some tt
  | tt, e :: es =>
      match traceHook tt e with
      | none => none
      | some tt' => runHooks tt' es

/-! ## Go strings -/

/-- One byte of a Go string. -/
abbrev Byte := Fin 256

/-- Go `string`: a sequence of bytes. -/
abbrev Str := List Byte

/-- The byte of an ASCII character. -/
def ch (c : Char) : Byte := Fin.ofNat c.toNat

/-- ASCII text as a Go string. -/
def bytes (s : String) : Str := s.toList.map ch

deriving instance DecidableEq for Except

/-- Go `strings.Cut(s, sep)` for a one-byte separator: the text before the first `sep`
and the text after it (all of `s` and nothing when `sep` does not occur). -/
def cut (sep : Byte) : Str → Str × Str
  | [] => ([], [])
  | c :: cs => if c = sep then ([], cs) else (c :: (cut sep cs).1, (cut sep cs).2)

/-- Go `strings.HasPrefix`. -/
def hasPrefix : Str → Str → Bool
  | _, [] => true
  | [], _ :: _ => false
  | c :: cs, p :: ps => decide (c = p) && hasPrefix cs ps

/-- Go `strings.Replace(s, old, "", -1)` for a non-empty `old`: every non-overlapping
occurrence of `old` is deleted, scanning from the left.  `fuel` bounds the scan. -/
def removeAllAux (old : Str) : Nat → Str → Str
  | 0, s => s
  | _ + 1, [] => []
  | fuel + 1, c :: cs =>
      if hasPrefix (c :: cs) old then removeAllAux old fuel ((c :: cs).drop old.length)
      else c :: removeAllAux old fuel cs

/-- Go `strings.Replace(s, old, "", -1)` for a non-empty `old`. -/
def removeAll (s old : Str) : Str := removeAllAux old s.length s

/-! ## `net/url`: query strings (`url.Values`, `ParseQuery`, `Encode`) -/

/-- ASCII letter or digit. -/
def isAlnum (c : Byte) : Bool :=
  (ch 'a' ≤ c && c ≤ ch 'z') || (ch 'A' ≤ c && c ≤ ch 'Z') || (ch '0' ≤ c && c ≤ ch '9')

/-- Go `ishex` of net/url. -/
def ishex (c : Byte) : Bool :=
  (ch '0' ≤ c && c ≤ ch '9') || (ch 'a' ≤ c && c ≤ ch 'f') || (ch 'A' ≤ c && c ≤ ch 'F')

/-- Go `unhex` of net/url: the value of a hexadecimal digit. -/
def unhex (c : Byte) : Byte :=
  if ch '0' ≤ c ∧ c ≤ ch '9' then c - ch '0'
  else if ch 'a' ≤ c ∧ c ≤ ch 'f' then c - ch 'a' + 10
  else if ch 'A' ≤ c ∧ c ≤ ch 'F' then c - ch 'A' + 10
  else 0

/-- The digit table `upperhex` of net/url. -/
def upperhex (n : Nat) : Byte := (bytes "0123456789ABCDEF").getD n 0

/-- Go `shouldEscape(c, encodeQueryComponent)`: everything but letters, digits and
`- _ . ~` is escaped in a query component. -/
def shouldEscape (c : Byte) : Bool :=
  !(isAlnum c || c = ch '-' || c = ch '_' || c = ch '.' || c = ch '~')

/-- What `QueryEscape` writes for one byte. -/
def escapeByte (c : Byte) : Str :=
  if shouldEscape c then
    if c = ch ' ' then [ch '+'] else [ch '%', upperhex (c.val / 16), upperhex (c.val % 16)]
  else [c]

/-- Go `url.QueryEscape`. -/
def QueryEscape : Str → Str
  | [] => []
  | c :: cs => escapeByte c ++ QueryEscape cs

/-- Go `url.QueryUnescape`: `%XX` becomes the byte, `+` a space; a `%` not followed
by two hexadecimal digits is an error. -/
def QueryUnescape : Str → Except String Str
  | [] => .ok []
  | c :: rest =>
    if c = ch '%' then
      match rest with
      | a :: b :: rest' =>
        if ishex a && ishex b then
          (QueryUnescape rest').map (fun t => (unhex a * 16 + unhex b) :: t)
        else .error "invalid URL escape"
      | _ => .error "invalid URL escape"
    else if c = ch '+' then (QueryUnescape rest).map (fun t => ch ' ' :: t)
    else (QueryUnescape rest).map (fun t => c :: t)

/-- The type `url.Values`, a Go `map[string][]string`: an association list with one entry
per key.  The order of the entries stands for nothing: Go code sees the map through
lookups, its length and `Encode`, which sorts the keys. -/
abbrev Values := List (Str × List Str)

/-- The lookup `v[key]`: the values stored under `key`, none when the key is absent. -/
def Values.Get : Values → Str → List Str
  | [], _ => []
  | (k, vs) :: m, key => if k = key then vs else Values.Get m key

/-- Go `Values.Add`: `v[key] = append(v[key], value)`. -/
def Values.Add : Values → Str → Str → Values
  | [], key, value => [(key, [value])]
  | (k, vs) :: m, key, value =>
      if k = key then (k, vs ++ [value]) :: m else (k, vs) :: Values.Add m key value

/-- The pieces of a query string between its `&` separators. -/
def splitAmp : Str → List Str
  | [] => [[]]
  | c :: cs =>
      if c = ch '&' then [] :: splitAmp cs
      else
        match splitAmp cs with
        | seg :: segs => (c :: seg) :: segs
        | [] => [[c]]

/-- One round of the loop of `parseQuery` on the piece `seg`: a piece holding `;` is
an error, an empty piece is skipped, any other is cut at its first `=`, both halves
are unescaped and the pair is added; the first unescape error is kept. -/
def parseSegment (st : Values × Option String) (seg : Str) : Values × Option String :=
  if seg.contains (ch ';') then (st.1, some "invalid semicolon separator in query")
  else if seg = [] then st
  else
    match QueryUnescape (cut (ch '=') seg).1 with
    | .error e => (st.1, if st.2.isSome then st.2 else some e)
    | .ok key =>
      match QueryUnescape (cut (ch '=') seg).2 with
      | .error e => (st.1, if st.2.isSome then st.2 else some e)
      | .ok value => (Values.Add st.1 key value, st.2)

/-- Go `url.ParseQuery`: the values parsed and the error, if any.  As in Go the map
holds every pair that did parse even when an error is reported. -/
def ParseQuery (query : Str) : Values × Option String :=
  (splitAmp query).foldl parseSegment ([], none)

/-- Byte-wise `a <= b` on strings, the order `sort.Strings` uses. -/
def strLe : Str → Str → Bool
  | [], _ => true
  | _ :: _, [] => false
  | a :: as, b :: bs => if a < b then true else if b < a then false else strLe as bs

/-- Go `sort.Strings` on the keys of a map (which are distinct). -/
def sortKeys (keys : List Str) : List Str :=
  keys.insertionSort (fun a b => strLe a b = true)

/-- Pieces joined by `&`. -/
def joinAmp : List Str → Str
  | [] => []
  | [s] => s
  | s :: t :: ts => s ++ ch '&' :: joinAmp (t :: ts)

/-- The text `Encode` writes for one pair. -/
def encodePair (kv : Str × Str) : Str := QueryEscape kv.1 ++ ch '=' :: QueryEscape kv.2

/-- The pairs of a `Values` in the order `Encode` writes them: keys ascending, the
values of one key in the order they were added. -/
def Values.pairs (v : Values) : List (Str × Str) :=
  (sortKeys (v.map Prod.fst)).flatMap (fun k => (Values.Get v k).map (fun x => (k, x)))

/-- Go `Values.Encode`: `key=value` pairs, escaped, joined by `&`, sorted by key. -/
def Values.Encode (v : Values) : Str := joinAmp ((Values.pairs v).map encodePair)

/-! ## `net/url`: URLs -/

/-- The fields of `net/url.URL`. -/
structure URL where
  Scheme : Str := []
  Opaque : Str := []
  User : Option (Str × Option Str) := none
  Host : Str := []
  Path : Str := []
  RawPath : Str := []
  OmitHost : Bool := false
  ForceQuery : Bool := false
  RawQuery : Str := []
  Fragment : Str := []
  RawFragment : Str := []
  deriving DecidableEq, Repr

/-- The two functions of net/url that the package calls on whole URLs, taken as a
parameter of the model: `url.Parse` and `(*URL).String`. -/
structure UrlLib where
  Parse : Str → Except String URL
  String : URL → Str

/-- Go `stringContainsCTLByte`. -/
def hasCTLByte (s : Str) : Bool := s.any (fun c => decide (c < 32) || decide (c = 127))

/-- ASCII letter. -/
def isLetter (c : Byte) : Bool := (ch 'a' ≤ c && c ≤ ch 'z') || (ch 'A' ≤ c && c ≤ ch 'Z')

/-- ASCII digit. -/
def isDigit (c : Byte) : Bool := ch '0' ≤ c && c ≤ ch '9'

/-- Go `strings.ToLower` on ASCII. -/
def toLower (s : Str) : Str := s.map (fun c => if ch 'A' ≤ c ∧ c ≤ ch 'Z' then c + 32 else c)

/-- The loop of `getScheme`; `seen` is the text already scanned. -/
def getSchemeAux (rawURL : Str) : Str → Str → Except String (Str × Str)
  | _, [] => .ok ([], rawURL)
  | seen, c :: cs =>
      if isLetter c then getSchemeAux rawURL (seen ++ [c]) cs
      else if isDigit c || c = ch '+' || c = ch '-' || c = ch '.' then
        if seen = [] then .ok ([], rawURL) else getSchemeAux rawURL (seen ++ [c]) cs
      else if c = ch ':' then
        if seen = [] then .error "missing protocol scheme" else .ok (seen, cs)
      else .ok ([], rawURL)

/-- Go `getScheme` of net/url: the scheme before the first `:` and the rest, or no
scheme when the text does not start with one. -/
def getScheme (rawURL : Str) : Except String (Str × Str) := getSchemeAux rawURL [] rawURL

/-- A byte that net/url neither escapes nor unescapes in a host, a path or a
fragment: a letter, a digit or one of `- . _ ~`. -/
def isPlain (c : Byte) : Bool :=
  isAlnum c || c = ch '-' || c = ch '.' || c = ch '_' || c = ch '~'

/-- An authority of the form `host` or `host:port`, with a host of plain bytes and a
port of digits. -/
def plainAuthority (a : Str) : Bool :=
  (cut (ch ':') a).1.all isPlain && (cut (ch ':') a).2.all isDigit

/-- A path of plain bytes and `/`. -/
def plainPath (p : Str) : Bool := p.all (fun c => isPlain c || c = ch '/')

/-- A fragment of plain bytes and of the bytes `$ & + , / : ; = ? @`, none of which
net/url escapes in a fragment. -/
def plainFragment (f : Str) : Bool :=
  f.all (fun c => isPlain c || (bytes "$&+,/:;=?@").contains c)

/-- The function `parse(rawURL, false)` of net/url, for text without its fragment.
It follows the Go function step by step: control bytes, `*`, scheme, query, opaque
part, the colon rule for relative paths, authority, path.  Userinfo, IP literals and
escapes, which net/url accepts as well, are not modelled: an authority that is not
`host` or `host:port` over plain bytes, or a path with a byte that is neither plain
nor `/`, is reported as an error by this model. -/
def parseNoFragment (rawURL : Str) : Except String URL :=
  if hasCTLByte rawURL then .error "net/url: invalid control character in URL"
  else if rawURL = bytes "*" then .ok { Path := bytes "*" }
  else
    match getScheme rawURL with
    | .error e => .error e
    | .ok (scheme, rest0) =>
      let force : Bool := rest0.getLast? = some (ch '?') && rest0.count (ch '?') = 1
      let rest : Str := if force then rest0.dropLast else (cut (ch '?') rest0).1
      let query : Str := if force then [] else (cut (ch '?') rest0).2
      let u : URL := { Scheme := toLower scheme, ForceQuery := force, RawQuery := query }
      if !hasPrefix rest (bytes "/") && u.Scheme ≠ [] then .ok { u with Opaque := rest }
      else if !hasPrefix rest (bytes "/") && (cut (ch '/') rest).1.contains (ch ':') then
        .error "first path segment in URL cannot contain colon"
      else if (u.Scheme ≠ [] || !hasPrefix rest (bytes "///")) && hasPrefix rest (bytes "//") then
        let authority := (cut (ch '/') (rest.drop 2)).1
        let path := (rest.drop 2).drop authority.length
        if plainAuthority authority && plainPath path then
          .ok { u with Host := authority, Path := path }
        else .error "URL outside the modelled syntax"
      else if plainPath rest then
        .ok { u with OmitHost := decide (u.Scheme ≠ []) && hasPrefix rest (bytes "/"), Path := rest }
      else .error "URL outside the modelled syntax"

/-- A model of `url.Parse`: the fragment is cut off at the first `#`, the rest goes
through `parseNoFragment`, and a fragment that needs no escaping is attached. -/
def urlParse (rawURL : Str) : Except String URL :=
  match parseNoFragment (cut (ch '#') rawURL).1 with
  | .error e => .error e
  | .ok u =>
    if plainFragment (cut (ch '#') rawURL).2 then .ok { u with Fragment := (cut (ch '#') rawURL).2 }
    else .error "URL outside the modelled syntax"

/-- A model of `(*URL).String` for the URLs `urlParse` returns (no userinfo, and a
host, path and fragment that need no escaping): scheme, `//host`, path, `?query`,
`#fragment`. -/
def urlString (u : URL) : Str :=
  let scheme : Str := if u.Scheme ≠ [] then u.Scheme ++ [ch ':'] else []
  let body : Str :=
    if u.Opaque ≠ [] then u.Opaque
    else
      let auth : Str :=
        if (u.Scheme ≠ [] ∨ u.Host ≠ []) ∧ ¬ (u.OmitHost = true ∧ u.Host = []) then
          (if u.Host ≠ [] ∨ u.Path ≠ [] then bytes "//" else []) ++ u.Host
        else []
      let slash : Str :=
        if u.Path ≠ [] ∧ u.Path.head? ≠ some (ch '/') ∧ u.Host ≠ [] then [ch '/'] else []
      let dot : Str :=
        if scheme = [] ∧ auth = [] ∧ slash = [] ∧ (cut (ch '/') u.Path).1.contains (ch ':')
        then bytes "./" else []
      auth ++ slash ++ dot ++ u.Path
  let query : Str := if u.ForceQuery = true ∨ u.RawQuery ≠ [] then ch '?' :: u.RawQuery else []
  let fragment : Str := if u.Fragment ≠ [] then ch '#' :: u.Fragment else []
  scheme ++ body ++ query ++ fragment

/-- The URL library used in the closed examples of this file. -/
def netUrl : UrlLib := { Parse := urlParse, String := urlString }

/-! ## `net/http` values -/

/-- The type `http.Header`, a Go `map[string][]string` (an association list, one entry per key). -/
abbrev HeaderMap := List (Str × List Str)

/-- Go `validHeaderFieldByte`: the bytes of an HTTP token. -/
def validHeaderFieldByte (c : Byte) : Bool :=
  isAlnum c || (bytes "!#$%&\x27*+-.^_\x60|~").contains c

/-- Go `textproto.CanonicalMIMEHeaderKey`: a key made of token bytes gets an upper-case
first letter and an upper-case letter after every `-`, lower case elsewhere; any
other key is left as it is. -/
def CanonicalMIMEHeaderKey (s : Str) : Str :=
  if s.all validHeaderFieldByte then
    (s.foldl (fun (acc : Str × Bool) c =>
      let c' : Byte :=
        if acc.2 = true ∧ ch 'a' ≤ c ∧ c ≤ ch 'z' then c - 32
        else if acc.2 = false ∧ ch 'A' ≤ c ∧ c ≤ ch 'Z' then c + 32
        else c
      (acc.1 ++ [c'], decide (c' = ch '-'))) ([], true)).1
  else s

/-- Go `delete(m, key)` on a header map. -/
def HeaderMap.delete (h : HeaderMap) (key : Str) : HeaderMap := h.filter (fun e => e.1 ≠ key)

/-- Go `Header.Set`: the canonical key is bound to the single value. -/
def HeaderMap.Set (h : HeaderMap) (key value : Str) : HeaderMap :=
  if h.any (fun e => e.1 = CanonicalMIMEHeaderKey key) then
    h.map (fun e => if e.1 = CanonicalMIMEHeaderKey key then (e.1, [value]) else e)
  else h ++ [(CanonicalMIMEHeaderKey key, [value])]

/-- Go `Header.Get`: the first value bound to the canonical key, or the empty string. -/
def HeaderMap.Get (h : HeaderMap) (key : Str) : Str :=
  match h.find? (fun e => e.1 = CanonicalMIMEHeaderKey key) with
  | some (_, v :: _) => v
  | _ => []

/-- The fields of `http.Cookie` the model keeps. -/
structure Cookie where
  Name : Str
  Value : Str
  deriving DecidableEq, Repr

/-- The fields of `http.Request` that the package reads or writes.  `Body` is the
text the body reader yields, `none` for a nil body; `GetBody` is `none` for nil. -/
structure HttpReq where
  Method : Str
  URL : Option URL
  Header : HeaderMap
  Body : Option Str
  GetBody : Option Str
  ContentLength : Int
  Close : Bool
  deriving DecidableEq, Repr

/-- The cookie jar of the client, seen from this package: the `SetCookies(u, cookies)`
calls it has received, oldest first. -/
abbrev Jar := List (URL × List Cookie)

/-- The struct `traceClient`: the embedded `http.Client` (of which the model keeps
the jar) and the trace state. -/
structure traceClient where
  Jar : Jar
  traceTime : traceTime
  traceStat : traceStat
  deriving DecidableEq, Repr

/-- The struct `Request`.  The Go field `Header` points at `httpreq.Header`, so the
model has the one header map, `httpreq.Header`. -/
structure Request where
  httpreq : HttpReq
  Client : traceClient
  Cookies : List Cookie
  deriving DecidableEq, Repr

/-- The fields of `http.Response` the package reads; `Body` is the state of the body
stream, of a type `σ` the model leaves open. -/
structure HttpResponse (σ : Type) where
  StatusCode : Int
  Header : HeaderMap
  Body : σ
  deriving DecidableEq

/-- The struct `Response`.  `content` is `none` for a nil slice.  `reads` is a ghost
counter: the number of times `Content` has read from `R.Body`. -/
structure Response (σ : Type) where
  R : HttpResponse σ
  content : Option Str
  text : Str
  req : Request
  reads : Nat
  deriving DecidableEq

/-- What the body stream of a response does, as a parameter of the model.
`ReadAll b` is `ioutil.ReadAll` on the stream: the bytes read, whether the read ended
in an error, and the stream afterwards.  `GzipReadAll b` is `gzip.NewReader` on the
stream followed by `ioutil.ReadAll` on the gzip reader: `none` when `NewReader`
fails, else the bytes decoded and whether the read ended in an error.  `Close b` is
`Body.Close()`. -/
structure BodyLib (σ : Type) where
  ReadAll : σ → (Str × Bool) × σ
  GzipReadAll : σ → Option (Str × Bool) × σ
  Close : σ → σ

/-- What one call of the underlying `http.Client.Do` does, as seen by the package:
the hook events it delivers, its result, the reading `time.Now()` gives right after
it returns, and the request header as it leaves it (the client adds the cookies of
the jar to the header of the request it is given). -/
structure NetCall (σ : Type) where
  events : List HookEvent
  result : Except String (HttpResponse σ)
  done : Int
  header : HeaderMap

/-- The standard-library functions the package calls, as parameters of the model.
`V` is the type of the Go values that can be passed as a JSON body. -/
structure Lib (σ V : Type) where
  /-- The functions `url.Parse` and `(*URL).String` of net/url. -/
  url : UrlLib
  /-- The method `time.Duration.String`. -/
  durationString : Int → String
  /-- The function `json.Marshal` on a value. -/
  marshal : V → Except String Str
  /-- The Go value of a `Params`, `Datas` or `Files` map, when it is used as a JSON body. -/
  ofMap : List (Str × Str) → V
  /-- The credentials `SetBasicAuth` writes after `Basic `: base64 of `user:password`. -/
  basicAuth : Str → Str → Str
  /-- The multipart writer run over the files and fields: the body and the
  `FormDataContentType()`, or `none` when a file cannot be opened or copied (a panic). -/
  multipart : List (List (Str × Str)) → List (List (Str × Str)) → Option (Str × Str)
  /-- The response body stream. -/
  body : BodyLib σ

/-! ## The package: options, request building, cookies -/

/-- One element of the variadic `args ...interface{}`, by dynamic type: the option
types `Header`, `Params`, `Datas`, `Files` (Go maps, given as their pairs in
iteration order) and `Auth`, a Go `string`, or a value of any other type. -/
inductive Arg (V : Type) where
  | Header (a : List (Str × Str))
  | Params (a : List (Str × Str))
  | Datas (a : List (Str × Str))
  | Files (a : List (Str × Str))
  | Auth (a : List Str)
  | string (s : Str)
  | other (v : V)

/-- How a call into the package ends: it returns, it panics, or the process exits
(`log.Fatalf` in the `ConnectDone` hook). -/
inductive Run (α : Type) where
  | returned (a : α)
  | panicked
  | exited
  deriving DecidableEq

/-- What a call of `Get`, `Post` or `PostJson` leaves behind when it returns: the
request afterwards, the request as it stood when `Client.Do` was invoked (`none`
when it never was), and the pair `(resp, err)` handed to the caller. -/
structure CallResult (σ : Type) where
  req : Request
  sent : Option Request
  resp : Except String (Response σ)
  deriving DecidableEq

/-- The method `withHttpTrace`: a fresh client with zero trace state; the hooks it
registers are `traceHook`. -/
def Request.withHttpTrace (r : Request) : Request :=
  { r with Client := { Jar := [], traceTime := traceTime.zero, traceStat := traceStat.zero } }

/-- The constructor `TraceRequests`. -/
def TraceRequests : Request :=
  Request.withHttpTrace
    { httpreq :=
        { Method := bytes "GET", URL := none, Header := [], Body := none, GetBody := none,
          ContentLength := 0, Close := false },
      Client := { Jar := [], traceTime := traceTime.zero, traceStat := traceStat.zero },
      Cookies := [] }

/-- The method `traceClient.Do` (request.go lines 104-127).  `call` is what the
embedded `t.Client.Do(r)` does; its hooks run on `t.traceTime` first.  `none` is the
process exit of a failed `ConnectDone`. -/
def traceClient.Do {σ : Type} (durationString : Int → String) (t : traceClient)
    (call : NetCall σ) : Option (traceClient × Except String (HttpResponse σ)) :=
  match runHooks t.traceTime call.events with
  | none => none
  | some tt =>
    match call.result with
    | .error err => some ({ t with traceTime := tt }, .error err)
    | .ok res =>
      let done := call.done
      let tt1 := if Time.IsZero tt.transferStart then { tt with transferStart := done } else tt
      let tt2 := if Time.IsZero tt1.dnsStart then { tt1 with dnsStart := tt1.dnsDone } else tt1
      some ({ t with
                traceTime := tt2,
                traceStat :=
                  { Status := res.StatusCode,
                    DNSLookup := durationString (Time.Sub tt2.dnsDone tt2.dnsStart),
                    TCPConnection := durationString (Time.Sub tt2.connDone tt2.dnsDone),
                    TLSHandshake := durationString (Time.Sub tt2.gotConn tt2.connDone),
                    ServerProcessing := durationString (Time.Sub tt2.transferStart tt2.gotConn),
                    ContentTransfer := durationString (Time.Sub done tt2.transferStart),
                    Total := durationString (Time.Sub done tt2.dnsStart) } },
            .ok res)

/-- The method `GetTraceStat`. -/
def traceClient.GetTraceStat (t : traceClient) : request.traceStat := t.traceStat

/-- The function `addQueryParams` (request.go lines 229-234). -/
def addQueryParams (U : UrlLib) (parsedURL : URL) (parsedQuery : Values) : Str :=
  if parsedQuery.length > 0 then
    removeAll (U.String parsedURL) (ch '?' :: parsedURL.RawQuery) ++ ch '?' :: Values.Encode parsedQuery
  else removeAll (U.String parsedURL) (ch '?' :: parsedURL.RawQuery)

/-- The two nested loops of `buildURLParams`: every pair of every option map is
added to the query. -/
def addParams (parsedQuery : Values) (params : List (List (Str × Str))) : Values :=
  params.foldl (fun q param => param.foldl (fun q kv => Values.Add q kv.1 kv.2) q) parsedQuery

/-- The function `buildURLParams` (request.go lines 208-227): the string and the
error it returns. -/
def buildURLParams (U : UrlLib) (userURL : Str) (params : List (List (Str × Str))) :
    Str × Option String :=
  match U.Parse userURL with
  | .error err => ([], some err)
  | .ok parsedURL =>
    match ParseQuery parsedURL.RawQuery with
    | (_, some _) => ([], none)
    | (parsedQuery, none) => (addQueryParams U parsedURL (addParams parsedQuery params), none)

/-- The method `Close`: `r.httpreq.Close = true`. -/
def Request.Close (r : Request) : Request := { r with httpreq := { r.httpreq with Close := true } }

/-- The method `SetCookie`. -/
def Request.SetCookie (r : Request) (cookie : Cookie) : Request :=
  { r with Cookies := r.Cookies ++ [cookie] }

/-- The method `ClearCookies`: `r.Cookies = r.Cookies[0:0]`. -/
def Request.ClearCookies (r : Request) : Request := { r with Cookies := [] }

/-- The method `ClientSetCookies`.  `none` is the panic of the jar when it is handed
a nil URL together with cookies. -/
def Request.ClientSetCookies (r : Request) : Option Request :=
  if r.Cookies.length > 0 then
    match r.httpreq.URL with
    | none => none
    | some u =>
      some (Request.ClearCookies
        { r with Client := { r.Client with Jar := r.Client.Jar ++ [(u, r.Cookies)] } })
  else some r

/-- The loop `for k, v := range a { r.Header.Set(k, v) }` of a `Header` option. -/
def Request.setHeaders (r : Request) (a : List (Str × Str)) : Request :=
  a.foldl (fun r kv =>
    { r with httpreq := { r.httpreq with Header := HeaderMap.Set r.httpreq.Header kv.1 kv.2 } }) r

/-- The call `r.httpreq.SetBasicAuth(username, password)`. -/
def Request.SetBasicAuth {σ V : Type} (L : Lib σ V) (r : Request) (username password : Str) :
    Request :=
  { r with httpreq := { r.httpreq with
      Header := HeaderMap.Set r.httpreq.Header (bytes "Authorization")
        (bytes "Basic " ++ L.basicAuth username password) } }

/-- The method `setBodyBytes`. -/
def Request.setBodyBytes (r : Request) (Forms : Values) : Request :=
  { r with httpreq := { r.httpreq with
      Body := some (Values.Encode Forms), ContentLength := (Values.Encode Forms).length } }

/-- The method `setBodyRawBytes`; `read` is the text the reader yields. -/
def Request.setBodyRawBytes (r : Request) (read : Str) : Request :=
  { r with httpreq := { r.httpreq with Body := some read } }

/-- The method `buildForms`. -/
def buildForms (datas : List (List (Str × Str))) : Values := addParams [] datas

/-- The method `buildFilesAndForms`; `none` is a panic. -/
def Request.buildFilesAndForms {σ V : Type} (L : Lib σ V) (r : Request)
    (files datas : List (List (Str × Str))) : Option Request :=
  match L.multipart files datas with
  | none => none
  | some (b, contentType) =>
    some { r with httpreq := { r.httpreq with
      Body := some b, ContentLength := b.length,
      Header := HeaderMap.Set r.httpreq.Header (bytes "Content-Type") contentType } }

/-! ## The package: responses -/

/-- Go `len` of a byte slice that may be nil. -/
def sliceLen (b : Option Str) : Nat := (b.getD []).length

/-- The method `Response.Content` (request.go lines 292-316): the slice it returns
(`none` for nil) and the response afterwards. -/
def Response.Content {σ : Type} (B : BodyLib σ) (resp : Response σ) : Option Str × Response σ :=
  if sliceLen resp.content > 0 then (resp.content, resp)
  else if HeaderMap.Get resp.R.Header (bytes "Content-Encoding") = bytes "gzip"
      ∧ HeaderMap.Get resp.req.httpreq.Header (bytes "Accept-Encoding") ≠ [] then
    match B.GzipReadAll resp.R.Body with
    | (none, b) => (none, { resp with R := { resp.R with Body := b }, reads := resp.reads + 1 })
    | (some (data, failed), b) =>
      (if failed then none else some data,
        { resp with R := { resp.R with Body := b }, content := some data, reads := resp.reads + 1 })
  else
    match B.ReadAll resp.R.Body with
    | ((data, failed), b) =>
      (if failed then none else some data,
        { resp with R := { resp.R with Body := b }, content := some data, reads := resp.reads + 1 })

/-- The method `GetRequest`. -/
def Response.GetRequest {σ : Type} (resp : Response σ) : Request := resp.req

/-- The method `Response.Text`: the string it returns and the response afterwards. -/
def Response.Text {σ : Type} (B : BodyLib σ) (resp : Response σ) : Str × Response σ :=
  let resp1 := if resp.content.isNone then (Response.Content B resp).2 else resp
  (resp1.content.getD [], { resp1 with text := resp1.content.getD [] })

/-- The common tail of `Get`, `Post` and `PostJson` once `Do` has succeeded: the
response is wrapped, `Content()` is called once, and the deferred `res.Body.Close()`
runs on return. -/
def wrapResponse {σ : Type} (B : BodyLib σ) (r : Request) (res : HttpResponse σ) : Response σ :=
  let resp := (Response.Content B { R := res, content := none, text := [], req := r, reads := 0 }).2
  { resp with R := { resp.R with Body := B.Close resp.R.Body } }

/-! ## The package: `Get`, `Post`, `PostJson` -/

/-- The loop over `args` in `Get` (request.go lines 162-178): the request and the
`Params` options collected; `none` is the panic of `a[0]`, `a[1]` on a short `Auth`. -/
def getArgs {σ V : Type} (L : Lib σ V) :
    Request → List (List (Str × Str)) → List (Arg V) → Option (Request × List (List (Str × Str)))
  | r, params, [] => some (r, params)
  | r, params, arg :: args =>
    match arg with
    | .Header a => getArgs L (r.setHeaders a) params args
    | .Params a => getArgs L r (params ++ [a]) args
    | .Auth (username :: password :: _) => getArgs L (r.SetBasicAuth L username password) params args
    | .Auth _ => none
    | _ => getArgs L r params args

/-- The statements `r.httpreq.Body = nil; r.httpreq.GetBody = nil;
r.httpreq.ContentLength = 0` that follow `Do` in `Post` and `PostJson`. -/
def Request.clearBody (r : Request) : Request :=
  { r with httpreq := { r.httpreq with Body := none, GetBody := none, ContentLength := 0 } }

/-- The statements of `Get`, `Post` and `PostJson` from `r.Client.Do(r.httpreq)` to the
return (request.go lines 191-204, 403-421, 482-501).  `r` is the request as
`ClientSetCookies` left it; `clear` says whether the three statements that clear the
body follow `Do`, as they do in `Post` and `PostJson`.  `net` is what the underlying
`http.Client.Do` does with the request it is given. -/
def Request.send {σ V : Type} (L : Lib σ V) (net : HttpReq → NetCall σ) (clear : Bool)
    (r : Request) : Run (CallResult σ) :=
  match traceClient.Do L.durationString r.Client (net r.httpreq) with
  | none => .exited
  | some (client, result) =>
    let r1 : Request := { r with
      Client := client, httpreq := { r.httpreq with Header := (net r.httpreq).header } }
    let r2 : Request := if clear then Request.clearBody r1 else r1
    match result with
    | .error err => .returned { req := r2, sent := some r, resp := .error err }
    | .ok res => .returned { req := r2, sent := some r, resp := .ok (wrapResponse L.body r2 res) }

/-- The statements of `Get` up to and including `r.ClientSetCookies()` (request.go
lines 152-189): the request at that point, with the error when `Get` returns there. -/
def Request.getPrepare {σ V : Type} (L : Lib σ V) (r : Request) (origurl : Str)
    (args : List (Arg V)) : Run (Request × Option String) :=
  let r1 : Request := { r with httpreq := { r.httpreq with
    Method := bytes "GET", Header := HeaderMap.delete r.httpreq.Header (bytes "Cookie") } }
  match getArgs L r1 [] args with
  | none => .panicked
  | some (r2, params) =>
    let disturl := (buildURLParams L.url origurl params).1
    match L.url.Parse disturl with
    | .error err => .returned (r2, some err)
    | .ok URL =>
      match Request.ClientSetCookies { r2 with httpreq := { r2.httpreq with URL := some URL } } with
      | none => .panicked
      | some r3 => .returned (r3, none)

/-- A call that ends before `Client.Do`, or goes on to it. -/
def Request.finish {σ V : Type} (L : Lib σ V) (net : HttpReq → NetCall σ) (clear : Bool) :
    Run (Request × Option String) → Run (CallResult σ)
  | .panicked => .panicked
  | .exited => .exited
  | .returned (r, some err) => .returned { req := r, sent := none, resp := .error err }
  | .returned (r, none) => Request.send L net clear r

/-- The method `Request.Get` (request.go lines 150-205). -/
def Request.Get {σ V : Type} (L : Lib σ V) (net : HttpReq → NetCall σ) (r : Request)
    (origurl : Str) (args : List (Arg V)) : Run (CallResult σ) :=
  Request.finish L net false (Request.getPrepare L r origurl args)

/-- The statement `json.NewEncoder(b).Encode(a)` on a fresh buffer: the JSON
encoding of the value followed by a newline, which is what `Encoder.Encode` writes. -/
def jsonEncode {V : Type} (marshal : V → Except String Str) (a : V) : Except String Str :=
  (marshal a).map (fun b => b ++ [ch '\n'])

/-- The loop over `args` in `PostJson` (request.go lines 371-392): the request when
the loop ends, and the error when it ends by `return nil, err`.  An argument that is
neither `Header`, `string` nor `Auth` is JSON-encoded into the body. -/
def postJsonArgs {σ V : Type} (L : Lib σ V) : Request → List (Arg V) → Run (Request × Option String)
  | r, [] => .returned (r, none)
  | r, arg :: args =>
    match arg with
    | .Header a => postJsonArgs L (r.setHeaders a) args
    | .string s => postJsonArgs L (r.setBodyRawBytes s) args
    | .Auth (username :: password :: _) => postJsonArgs L (r.SetBasicAuth L username password) args
    | .Auth _ => .panicked
    | .Params a | .Datas a | .Files a =>
      match jsonEncode L.marshal (L.ofMap a) with
      | .error err => .returned (r, some err)
      | .ok b => postJsonArgs L (r.setBodyRawBytes b) args
    | .other v =>
      match jsonEncode L.marshal v with
      | .error err => .returned (r, some err)
      | .ok b => postJsonArgs L (r.setBodyRawBytes b) args

/-- The statements of `PostJson` up to and including `r.ClientSetCookies()`
(request.go lines 363-401): the request at that point, with the error when
`PostJson` returns there. -/
def Request.postJsonPrepare {σ V : Type} (L : Lib σ V) (r : Request) (origurl : Str)
    (args : List (Arg V)) : Run (Request × Option String) :=
  let r1 : Request := { r with httpreq := { r.httpreq with
    Method := bytes "POST",
    Header := HeaderMap.delete
      (HeaderMap.Set r.httpreq.Header (bytes "Content-Type") (bytes "application/json"))
      (bytes "Cookie") } }
  match postJsonArgs L r1 args with
  | .panicked => .panicked
  | .exited => .exited
  | .returned (r2, some err) => .returned (r2, some err)
  | .returned (r2, none) =>
    match L.url.Parse origurl with
    | .error err => .returned (r2, some err)
    | .ok URL =>
      match Request.ClientSetCookies { r2 with httpreq := { r2.httpreq with URL := some URL } } with
      | none => .panicked
      | some r3 => .returned (r3, none)

/-- The method `Request.PostJson` (request.go lines 361-422). -/
def Request.PostJson {σ V : Type} (L : Lib σ V) (net : HttpReq → NetCall σ) (r : Request)
    (origurl : Str) (args : List (Arg V)) : Run (CallResult σ) :=
  Request.finish L net true (Request.postJsonPrepare L r origurl args)

/-- The options `Post` collects from `args`. -/
structure PostArgs where
  params : List (List (Str × Str)) := []
  datas : List (List (Str × Str)) := []
  files : List (List (Str × Str)) := []

/-- The loop over `args` in `Post` (request.go lines 441-462); `none` is the panic
of `a[0]`, `a[1]` on a short `Auth`. -/
def postArgs {σ V : Type} (L : Lib σ V) :
    Request → PostArgs → List (Arg V) → Option (Request × PostArgs)
  | r, acc, [] => some (r, acc)
  | r, acc, arg :: args =>
    match arg with
    | .Header a => postArgs L (r.setHeaders a) acc args
    | .Params a => postArgs L r { acc with params := acc.params ++ [a] } args
    | .Datas a => postArgs L r { acc with datas := acc.datas ++ [a] } args
    | .Files a => postArgs L r { acc with files := acc.files ++ [a] } args
    | .Auth (username :: password :: _) => postArgs L (r.SetBasicAuth L username password) acc args
    | .Auth _ => none
    | _ => postArgs L r acc args

/-- The statements of `Post` up to and including `r.ClientSetCookies()` (request.go
lines 426-480): the request at that point, with the error when `Post` returns there. -/
def Request.postPrepare {σ V : Type} (L : Lib σ V) (r : Request) (origurl : Str)
    (args : List (Arg V)) : Run (Request × Option String) :=
  let r1 : Request := { r with httpreq := { r.httpreq with
    Method := bytes "POST",
    Header := HeaderMap.delete
      (HeaderMap.Set r.httpreq.Header (bytes "Content-Type")
        (bytes "application/x-www-form-urlencoded"))
      (bytes "Cookie") } }
  match postArgs L r1 {} args with
  | none => .panicked
  | some (r2, acc) =>
    let disturl := (buildURLParams L.url origurl acc.params).1
    let body : Option Request :=
      if acc.files.length > 0 then r2.buildFilesAndForms L acc.files acc.datas
      else some (r2.setBodyBytes (buildForms acc.datas))
    match body with
    | none => .panicked
    | some r2b =>
      match L.url.Parse disturl with
      | .error err => .returned (r2b, some err)
      | .ok URL =>
        match Request.ClientSetCookies { r2b with httpreq := { r2b.httpreq with URL := some URL } } with
        | none => .panicked
        | some r3 => .returned (r3, none)

/-- The method `Request.Post` (request.go lines 424-502). -/
def Request.Post {σ V : Type} (L : Lib σ V) (net : HttpReq → NetCall σ) (r : Request)
    (origurl : Str) (args : List (Arg V)) : Run (CallResult σ) :=
  Request.finish L net true (Request.postPrepare L r origurl args)

/-! ## Vocabulary of the statements -/

/-- The slot a hook writes, numbered in lifecycle order: DNS-start 1, DNS-done 2
(`DNSDone`, and `ConnectStart` as its back-fill), connect-done 3,
connection-acquired 4, first-response-byte 5. -/
def HookEvent.slot : HookEvent → Nat
  | .DNSStart _ => 1
  | .DNSDone _ => 2
  | .ConnectStart _ => 2
  | .ConnectDone _ _ => 3
  | .GotConn _ => 4
  | .GotFirstResponseByte _ => 5

/-- Whether the event is a `ConnectStart`. -/
def HookEvent.isConnectStart : HookEvent → Bool
  | .ConnectStart _ => true
  | _ => false

/-- Whether the event is a `ConnectDone` that was handed an error. -/
def HookEvent.isFailedConnect : HookEvent → Bool
  | .ConnectDone failed _ => failed
  | _ => false

/-- Lifecycle order of a sequence of hook events that follows an event of slot `k`:
every event is for the slot of the event before it, for an earlier slot, or for the
next slot, and a `ConnectStart` does not come directly after a `DNSStart`.  The
result is the slot of the last event (`k` when there is none), `none` when the
sequence is out of order. -/
def lifecyclePhase : Nat → List HookEvent → Option Nat
  | k, [] => some k
  | k, e :: es =>
      if e.slot ≤ k + 1 ∧ (e.isConnectStart = true → 2 ≤ k) then lifecyclePhase e.slot es
      else none

/-- The timestamps from which the stat is derived are in order, up to the completion
time `done`. -/
def traceTime.ordered (tt : traceTime) (done : Int) : Prop :=
  tt.dnsStart ≤ tt.dnsDone ∧ tt.dnsDone ≤ tt.connDone ∧ tt.connDone ≤ tt.gotConn ∧
    tt.gotConn ≤ tt.transferStart ∧ tt.transferStart ≤ done

instance (tt : traceTime) (done : Int) : Decidable (traceTime.ordered tt done) := by
  unfold traceTime.ordered
  infer_instance

/-- The invariant behind lifecycle order: the first `k` slots are in order and none
of them is later than the time `lo`. -/
def phaseInv (k : Nat) (tt : traceTime) (lo : Int) : Prop :=
  (1 ≤ k → tt.dnsStart ≤ lo) ∧
  (2 ≤ k → tt.dnsStart ≤ tt.dnsDone ∧ tt.dnsDone ≤ lo) ∧
  (3 ≤ k → tt.dnsDone ≤ tt.connDone ∧ tt.connDone ≤ lo) ∧
  (4 ≤ k → tt.connDone ≤ tt.gotConn ∧ tt.gotConn ≤ lo) ∧
  (5 ≤ k → tt.gotConn ≤ tt.transferStart ∧ tt.transferStart ≤ lo)

instance (k : Nat) (tt : traceTime) (lo : Int) : Decidable (phaseInv k tt lo) := by
  unfold phaseInv
  infer_instance

/-- Whether the event is a `DNSDone`. -/
def HookEvent.isDNSDone : HookEvent → Bool
  | .DNSDone _ => true
  | _ => false

/-- The pair a piece of a query string stands for, read as `parseQuery` reads it;
`none` for a piece that `parseQuery` skips or rejects. -/
def segmentPair (seg : Str) : Option (Str × Str) :=
  if seg.contains (ch ';') then none
  else if seg = [] then none
  else
    match QueryUnescape (cut (ch '=') seg).1, QueryUnescape (cut (ch '=') seg).2 with
    | .ok key, .ok value => some (key, value)
    | _, _ => none

/-- The key-value pairs of a query string, in the order in which they are written. -/
def queryPairs (query : Str) : List (Str × Str) := (splitAmp query).filterMap segmentPair

/-- The pairs of a list of option maps, in the order in which `buildURLParams` adds them. -/
def optionPairs (params : List (List (Str × Str))) : List (Str × Str) := params.flatten

/-- Whether the event is a `DNSStart`. -/
def HookEvent.isDNSStart : HookEvent → Bool
  | .DNSStart _ => true
  | _ => false

/-- Whether the event is a `ConnectDone`. -/
def HookEvent.isConnectDone : HookEvent → Bool
  | .ConnectDone _ _ => true
  | _ => false

/-- Whether the event is a `GotConn`. -/
def HookEvent.isGotConn : HookEvent → Bool
  | .GotConn _ => true
  | _ => false

/-- Whether the event is a `GotFirstResponseByte`. -/
def HookEvent.isGotFirstResponseByte : HookEvent → Bool
  | .GotFirstResponseByte _ => true
  | _ => false

/-- What a slot holds once the events have been delivered, for a slot that the events
selected by `own` write: the clock reading of the last such event, and what the slot
held before (`before`) when there is none. -/
def lastStamp (own : HookEvent → Bool) (before : Int) (evs : List HookEvent) : Int :=
  evs.foldl (fun cur e => if own e then e.now else cur) before

/-- What the DNS-done slot holds once the events have been delivered: every `DNSDone`
writes it, and a `ConnectStart` writes it when it finds the zero time there. -/
def dnsDoneStamp (before : Int) (evs : List HookEvent) : Int :=
  evs.foldl (fun cur e =>
    match e with
    | .DNSDone now => now
    | .ConnectStart now => if cur = 0 then now else cur
    | _ => cur) before

/-- The five slots once the events of a call have been delivered, from what they held
before the call (`before`: the zero time on a fresh client, the timestamps of the
previous call on a client that is used again). -/
def slotsAfter (before : traceTime) (evs : List HookEvent) : traceTime :=
  { dnsStart := lastStamp HookEvent.isDNSStart before.dnsStart evs,
    dnsDone := dnsDoneStamp before.dnsDone evs,
    gotConn := lastStamp HookEvent.isGotConn before.gotConn evs,
    connDone := lastStamp HookEvent.isConnectDone before.connDone evs,
    transferStart := lastStamp HookEvent.isGotFirstResponseByte before.transferStart evs }

/-- The time `T` from which server processing and content transfer are measured: the
first-response-byte slot when it holds a timestamp other than the zero time, the
completion time `done` otherwise. -/
def traceTime.T (tt : traceTime) (done : Int) : Int :=
  if tt.transferStart = 0 then done else tt.transferStart

/-- The time `S` from which DNS lookup and the total are measured: the DNS-start slot
when it holds a timestamp other than the zero time, the DNS-done slot otherwise. -/
def traceTime.S (tt : traceTime) : Int :=
  if tt.dnsStart = 0 then tt.dnsDone else tt.dnsStart

/-- A difference of two times brought into the range of a `time.Duration`: the
difference itself when it fits an int64, else the nearest bound. -/
def saturate (d : Int) : Int := max minDuration (min maxDuration d)

/-- The difference fits a `time.Duration`. -/
def fitsDuration (d : Int) : Prop := minDuration ≤ d ∧ d ≤ maxDuration

instance (d : Int) : Decidable (fitsDuration d) := by
  unfold fitsDuration
  infer_instance

/-- Whether the argument is a `Header` option. -/
def Arg.isHeader {V : Type} : Arg V → Bool
  | .Header _ => true
  | _ => false

/-- Whether `PostJson` sets the body from the argument: every argument but a `Header`
and an `Auth` option, that is a `string`, taken as the body verbatim, or a value to
encode. -/
def Arg.setsBody {V : Type} : Arg V → Bool
  | .Header _ => false
  | .Auth _ => false
  | _ => true

/-- The Go value that `PostJson` JSON-encodes into the body for the argument: the
argument itself when it is neither a `Header`, a `string` nor an `Auth`. -/
def Arg.jsonValue {σ V : Type} (L : Lib σ V) : Arg V → Option V
  | .Params a => some (L.ofMap a)
  | .Datas a => some (L.ofMap a)
  | .Files a => some (L.ofMap a)
  | .other v => some v
  | _ => none

/-- Whether the loop of `PostJson` gets past the argument: an `Auth` option has its
two entries (the loop indexes `a[0]` and `a[1]`) and a value to encode can be
serialized (otherwise `PostJson` returns the error of the encoder). -/
def Arg.passes {σ V : Type} (L : Lib σ V) : Arg V → Bool
  | .Header _ => true
  | .string _ => true
  | .Auth a => decide (2 ≤ a.length)
  | .Params a => (L.marshal (L.ofMap a)).toBool
  | .Datas a => (L.marshal (L.ofMap a)).toBool
  | .Files a => (L.marshal (L.ofMap a)).toBool
  | .other v => (L.marshal v).toBool

/-! ## Values of the closed examples -/

/-- A rendering of durations for the examples: the number of nanoseconds. -/
def demoDuration (d : Int) : String := toString d ++ "ns"

/-- A response with status 200 and no body stream state. -/
def demoResponse : HttpResponse Unit := { StatusCode := 200, Header := [], Body := () }

/-- A successful call over a fresh connection: the six hooks in lifecycle order,
completion at time 60. -/
def demoCall : NetCall Unit :=
  { events := [.DNSStart 10, .DNSDone 20, .ConnectStart 20, .ConnectDone false 30, .GotConn 40,
      .GotFirstResponseByte 50],
    result := .ok demoResponse, done := 60, header := [] }

/-- A successful call in which the connection is handed over (`GotConn`) before the
dial reports `ConnectDone`; the clock readings are non-decreasing. -/
def lateConnectCall : NetCall Unit :=
  { events := [.DNSStart 1, .DNSDone 2, .ConnectStart 3, .GotConn 4, .ConnectDone false 5,
      .GotFirstResponseByte 6],
    result := .ok demoResponse, done := 7, header := [] }

/-- A successful call for which the transport reports neither a DNS lookup nor a first
response byte: `ConnectStart`, `ConnectDone` and `GotConn` only, completion at time 60. -/
def dialCall : NetCall Unit :=
  { events := [.ConnectStart 20, .ConnectDone false 30, .GotConn 40],
    result := .ok demoResponse, done := 60, header := [] }

/-- A successful call during which no hook runs, completed at a present-day clock
reading: 63900000000 seconds (about 2025 years) after the zero instant. -/
def silentCall : NetCall Unit :=
  { events := [], result := .ok demoResponse, done := 63900000000000000000, header := [] }

/-- A call whose dial to the first address of the host fails and whose dial to the
second address succeeds: the client would return the response. -/
def fallbackCall : NetCall Unit :=
  { events := [.DNSStart 10, .DNSDone 20, .ConnectStart 20, .ConnectDone true 25,
      .ConnectStart 25, .ConnectDone false 30, .GotConn 40, .GotFirstResponseByte 50],
    result := .ok demoResponse, done := 60, header := [] }

/-- A second call on a client, to an address that needs no DNS lookup: no `DNSStart`
and no `DNSDone` is delivered, completion at time 1100. -/
def secondCall : NetCall Unit :=
  { events := [.ConnectStart 1020, .ConnectDone false 1030, .GotConn 1040,
      .GotFirstResponseByte 1050],
    result := .ok demoResponse, done := 1100, header := [] }

/-- A response body stream for the examples: the bytes still to be read, what a gzip
reader would decode from them (`none` when they are not gzip data), whether the
stream ends in a read error instead of end-of-file, and whether it is closed. -/
structure Stream where
  pending : Str
  gunzipped : Option Str
  failing : Bool
  closed : Bool
  deriving DecidableEq, Repr

/-- The operations of `BodyLib` on `Stream`: a read drains the stream, a closed
stream only yields an error. -/
def streamLib : BodyLib Stream :=
  { ReadAll := fun s =>
      if s.closed then (([], true), s)
      else ((s.pending, s.failing), { s with pending := [], gunzipped := none }),
    GzipReadAll := fun s =>
      if s.closed then (none, s)
      else (s.gunzipped.map (fun d => (d, s.failing)), { s with pending := [], gunzipped := none }),
    Close := fun s => { s with closed := true } }

/-- Go values for the JSON examples: an integer, a string, a map from strings to
integers and strings, and a channel (which `json.Marshal` refuses). -/
inductive JsonValue where
  | int (n : Int)
  | str (s : Str)
  | object (fields : List (Str × (Int ⊕ Str)))
  | chan
  deriving DecidableEq

/-- The JSON text of a string of the examples: quoted, with `"` and `\` escaped.  The
strings of the examples hold no control byte and none of `<`, `>`, `&`. -/
def jsonString (s : Str) : Str :=
  ch '"' :: (s.foldr (fun c acc =>
    if c = ch '"' ∨ c = ch '\\' then ch '\\' :: c :: acc else c :: acc) [ch '"'])

/-- The JSON text of an integer or a string. -/
def jsonScalar : Int ⊕ Str → Str
  | .inl n => bytes (toString n)
  | .inr s => jsonString s

/-- The text `json.Marshal` produces for the values of the examples: a map is
written with its keys sorted. -/
def demoMarshal : JsonValue → Except String Str
  | .int n => .ok (jsonScalar (.inl n))
  | .str s => .ok (jsonScalar (.inr s))
  | .object fields =>
      .ok (ch '\x7b' ::
        (((fields.insertionSort (fun a b => strLe a.1 b.1 = true)).map
            (fun kv => jsonString kv.1 ++ ch ':' :: jsonScalar kv.2)).intersperse [ch ',']).flatten
          ++ [ch '\x7d'])
  | .chan => .error "json: unsupported type: chan int"

/-- The alphabet of `base64.StdEncoding`. -/
def base64Digit (n : Nat) : Byte :=
  (bytes "ABCDEFGHIJKLMNOPQRSTUVWXYZabcdefghijklmnopqrstuvwxyz0123456789+/").getD n 0

/-- The encoding `base64.StdEncoding.EncodeToString`. -/
def base64 : Str → Str
  | a :: b :: c :: rest =>
      base64Digit (a.val / 4) :: base64Digit (a.val % 4 * 16 + b.val / 16) ::
        base64Digit (b.val % 16 * 4 + c.val / 64) :: base64Digit (c.val % 64) :: base64 rest
  | [a, b] =>
      [base64Digit (a.val / 4), base64Digit (a.val % 4 * 16 + b.val / 16),
        base64Digit (b.val % 16 * 4), ch '=']
  | [a] => [base64Digit (a.val / 4), base64Digit (a.val % 4 * 16), ch '=', ch '=']
  | [] => []

/-- The library of the closed examples: the URL model `netUrl`, durations as
nanosecond counts, the JSON values above, base64 credentials, and a multipart writer
that panics whenever it is run (the examples pass no `Files` option, so none of them
reaches it). -/
def demoLib : Lib Stream JsonValue :=
  { url := netUrl,
    durationString := demoDuration,
    marshal := demoMarshal,
    ofMap := fun m => .object (m.map (fun kv => (kv.1, .inr kv.2))),
    basicAuth := fun username password => base64 (username ++ ch ':' :: password),
    multipart := fun _ _ => none,
    body := streamLib }

/-- A server for the examples.  A request for an `http` or `https` URL succeeds with
status 200 and the given body, after the six hooks in lifecycle order; the header is
left as it is.  Any other request is refused by the client before any network
activity, as `http.Client.Do` refuses a URL whose scheme it does not support. -/
def demoNet (body : Str) (req : HttpReq) : NetCall Stream :=
  if req.URL.map URL.Scheme = some (bytes "http") ∨ req.URL.map URL.Scheme = some (bytes "https") then
    { events := [.DNSStart 10, .DNSDone 20, .ConnectStart 20, .ConnectDone false 30, .GotConn 40,
        .GotFirstResponseByte 50],
      result := .ok
        { StatusCode := 200, Header := [],
          Body := { pending := body, gunzipped := none, failing := false, closed := false } },
      done := 60, header := req.Header }
  else
    { events := [], result := .error "unsupported protocol scheme", done := 60,
      header := req.Header }

/-- A fresh request aimed at `http://x/y`, for the examples that start after the URL
has been set. -/
def demoRequest : Request :=
  { TraceRequests with httpreq := { TraceRequests.httpreq with
      URL := some { Scheme := bytes "http", Host := bytes "x", Path := bytes "/y" } } }

/-- A response of the examples, not yet read, over the given body stream. -/
def demoResp (body : Stream) : Response Stream :=
  { R := { StatusCode := 200, Header := [], Body := body }, content := none, text := [],
    req := TraceRequests, reads := 0 }

/-! # Theorems -/

/-! ## Trace state -/

theorem Time.Sub_eq (a b : Int) (h1 : minDuration ≤ a - b) (h2 : a - b ≤ maxDuration) :
    Time.Sub a b = a - b := by
  unfold Time.Sub
  rw [if_neg (by omega), if_neg (by omega)]

theorem Time.Sub_nonneg (a b : Int) (h : b ≤ a) : 0 ≤ Time.Sub a b := by
  unfold Time.Sub minDuration maxDuration
  split
  · omega
  · split <;> omega

theorem traceClient_Do_returns {σ : Type} (durationString : Int → String) (t : traceClient)
    (call : NetCall σ) (res : HttpResponse σ) (tt : traceTime)
    (hhooks : runHooks t.traceTime call.events = some tt) (hres : call.result = .ok res) :
    ∃ t', traceClient.Do durationString t call = some (t', .ok res) ∧
      t'.traceTime = { tt with
        transferStart := if Time.IsZero tt.transferStart then call.done else tt.transferStart,
        dnsStart := if Time.IsZero tt.dnsStart then tt.dnsDone else tt.dnsStart } := by
  unfold traceClient.Do
  rw [hhooks, hres]
  by_cases h1 : Time.IsZero tt.transferStart = true <;> by_cases h2 : Time.IsZero tt.dnsStart = true <;>
    simp [h1, h2]

theorem Time.Sub_saturate (a b : Int) : Time.Sub a b = saturate (a - b) := by
  unfold Time.Sub saturate minDuration maxDuration
  split
  · omega
  · split <;> omega

theorem saturate_of_fits (d : Int) (h : fitsDuration d) : saturate d = d := by
  unfold fitsDuration minDuration maxDuration at h
  unfold saturate minDuration maxDuration
  omega

theorem runHooks_slotsAfter : ∀ (evs : List HookEvent) (tt : traceTime),
    (∀ e ∈ evs, e.isFailedConnect = false) → runHooks tt evs = some (slotsAfter tt evs) := by
  intro evs
  induction evs with
  | nil => intro tt _; rfl
  | cons e es ih =>
    intro tt h
    have he := h e (List.mem_cons_self _ _)
    have hrest : ∀ x ∈ es, x.isFailedConnect = false := fun x hx => h x (List.mem_cons_of_mem _ hx)
    cases e with
    | DNSStart n => simp only [runHooks, traceHook]; rw [ih _ hrest]; rfl
    | DNSDone n => simp only [runHooks, traceHook]; rw [ih _ hrest]; rfl
    | ConnectStart n =>
      simp only [runHooks, traceHook]
      by_cases hz : tt.dnsDone = 0
      · simp only [Time.IsZero, hz, decide_True, if_true]; rw [ih _ hrest]
        simp [slotsAfter, lastStamp, dnsDoneStamp, HookEvent.isDNSStart, HookEvent.isGotConn,
          HookEvent.isConnectDone, HookEvent.isGotFirstResponseByte, hz]
      · simp only [Time.IsZero, hz, decide_False, Bool.false_eq_true, if_false]; rw [ih _ hrest]
        simp [slotsAfter, lastStamp, dnsDoneStamp, HookEvent.isDNSStart, HookEvent.isGotConn,
          HookEvent.isConnectDone, HookEvent.isGotFirstResponseByte, hz]
    | ConnectDone failed n =>
      simp only [HookEvent.isFailedConnect] at he
      subst he
      simp only [runHooks, traceHook, Bool.false_eq_true, if_false]; rw [ih _ hrest]; rfl
    | GotConn n => simp only [runHooks, traceHook]; rw [ih _ hrest]; rfl
    | GotFirstResponseByte n => simp only [runHooks, traceHook]; rw [ih _ hrest]; rfl

/-- C1 (amended). When no `ConnectDone` hook reports an error and the underlying call
succeeds at time `done`, `traceClient.Do` returns the response and publishes the stat
with the response status code and six durations.  Each slot is read as the hooks of
the call leave it (`slotsAfter`): the clock reading of the last event of its hook, or
what the slot held before the call when the call delivers none.  `T` is the
first-response-byte slot when that is not the zero time and `done` otherwise, `S` the
DNS-start slot when that is not the zero time and the DNS-done slot otherwise.  The
durations published are the renderings by `Duration.String` of the differences
`dnsDone - S`, `connDone - dnsDone`, `gotConn - connDone`, `T - gotConn`, `done - T`
and `done - S`, each saturated to the int64 range of a duration; a difference that
fits that range is published exactly. -/
theorem traceClient_Do_stat {σ : Type} (durationString : Int → String) (t : traceClient)
    (call : NetCall σ) (res : HttpResponse σ)
    (hconn : ∀ e ∈ call.events, e.isFailedConnect = false) (hres : call.result = .ok res) :
    ∃ t', traceClient.Do durationString t call = some (t', .ok res) ∧
      t'.traceStat.Status = res.StatusCode ∧
      t'.traceStat.DNSLookup = durationString (saturate
        ((slotsAfter t.traceTime call.events).dnsDone - (slotsAfter t.traceTime call.events).S)) ∧
      t'.traceStat.TCPConnection = durationString (saturate
        ((slotsAfter t.traceTime call.events).connDone -
          (slotsAfter t.traceTime call.events).dnsDone)) ∧
      t'.traceStat.TLSHandshake = durationString (saturate
        ((slotsAfter t.traceTime call.events).gotConn -
          (slotsAfter t.traceTime call.events).connDone)) ∧
      t'.traceStat.ServerProcessing = durationString (saturate
        ((slotsAfter t.traceTime call.events).T call.done -
          (slotsAfter t.traceTime call.events).gotConn)) ∧
      t'.traceStat.ContentTransfer = durationString (saturate
        (call.done - (slotsAfter t.traceTime call.events).T call.done)) ∧
      t'.traceStat.Total = durationString (saturate
        (call.done - (slotsAfter t.traceTime call.events).S)) ∧
      (fitsDuration
          ((slotsAfter t.traceTime call.events).dnsDone - (slotsAfter t.traceTime call.events).S) →
        t'.traceStat.DNSLookup = durationString
          ((slotsAfter t.traceTime call.events).dnsDone - (slotsAfter t.traceTime call.events).S)) ∧
      (fitsDuration
          ((slotsAfter t.traceTime call.events).connDone -
            (slotsAfter t.traceTime call.events).dnsDone) →
        t'.traceStat.TCPConnection = durationString
          ((slotsAfter t.traceTime call.events).connDone -
            (slotsAfter t.traceTime call.events).dnsDone)) ∧
      (fitsDuration
          ((slotsAfter t.traceTime call.events).gotConn -
            (slotsAfter t.traceTime call.events).connDone) →
        t'.traceStat.TLSHandshake = durationString
          ((slotsAfter t.traceTime call.events).gotConn -
            (slotsAfter t.traceTime call.events).connDone)) ∧
      (fitsDuration
          ((slotsAfter t.traceTime call.events).T call.done -
            (slotsAfter t.traceTime call.events).gotConn) →
        t'.traceStat.ServerProcessing = durationString
          ((slotsAfter t.traceTime call.events).T call.done -
            (slotsAfter t.traceTime call.events).gotConn)) ∧
      (fitsDuration (call.done - (slotsAfter t.traceTime call.events).T call.done) →
        t'.traceStat.ContentTransfer = durationString
          (call.done - (slotsAfter t.traceTime call.events).T call.done)) ∧
      (fitsDuration (call.done - (slotsAfter t.traceTime call.events).S) →
        t'.traceStat.Total = durationString
          (call.done - (slotsAfter t.traceTime call.events).S)) := by
  have key : ∃ t', traceClient.Do durationString t call = some (t', .ok res) ∧
      t'.traceStat =
        { Status := res.StatusCode,
          DNSLookup := durationString (saturate
            ((slotsAfter t.traceTime call.events).dnsDone -
              (slotsAfter t.traceTime call.events).S)),
          TCPConnection := durationString (saturate
            ((slotsAfter t.traceTime call.events).connDone -
              (slotsAfter t.traceTime call.events).dnsDone)),
          TLSHandshake := durationString (saturate
            ((slotsAfter t.traceTime call.events).gotConn -
              (slotsAfter t.traceTime call.events).connDone)),
          ServerProcessing := durationString (saturate
            ((slotsAfter t.traceTime call.events).T call.done -
              (slotsAfter t.traceTime call.events).gotConn)),
          ContentTransfer := durationString (saturate
            (call.done - (slotsAfter t.traceTime call.events).T call.done)),
          Total := durationString (saturate
            (call.done - (slotsAfter t.traceTime call.events).S)) } := by
    unfold traceClient.Do
    rw [runHooks_slotsAfter call.events t.traceTime hconn, hres]
    refine ⟨_, rfl, ?_⟩
    generalize slotsAfter t.traceTime call.events = tt
    simp only [Time.Sub_saturate, traceTime.T, traceTime.S, Time.IsZero]
    by_cases h1 : tt.transferStart = 0 <;> by_cases h2 : tt.dnsStart = 0 <;> simp [h1, h2]
  obtain ⟨t', hdo, hstat⟩ := key
  refine ⟨t', hdo, ?_⟩
  rw [hstat]
  refine ⟨rfl, rfl, rfl, rfl, rfl, rfl, rfl, ?_, ?_, ?_, ?_, ?_, ?_⟩ <;>
    (intro h; simp only [saturate_of_fits _ h])

theorem phaseInv_mono (k : Nat) (tt : traceTime) (lo hi : Int) (h : phaseInv k tt lo)
    (hle : lo ≤ hi) : phaseInv k tt hi := by
  unfold phaseInv at *
  refine ⟨?_, ?_, ?_, ?_, ?_⟩ <;> intro hk
  · have := h.1 hk; omega
  · have := h.2.1 hk; omega
  · have := h.2.2.1 hk; omega
  · have := h.2.2.2.1 hk; omega
  · have := h.2.2.2.2 hk; omega

theorem traceHook_phase (k : Nat) (tt tt' : traceTime) (lo : Int) (e : HookEvent)
    (hinv : phaseInv k tt lo) (hslot : e.slot ≤ k + 1)
    (hcs : e.isConnectStart = true → 2 ≤ k) (hlo : lo ≤ e.now)
    (h : traceHook tt e = some tt') : phaseInv e.slot tt' e.now := by
  obtain ⟨h1, h2, h3, h4, h5⟩ := hinv
  cases e with
  | DNSStart n =>
    simp only [traceHook, Option.some.injEq] at h
    subst h
    simp [phaseInv, HookEvent.slot, HookEvent.now]
  | DNSDone n =>
    simp only [traceHook, Option.some.injEq] at h
    subst h
    simp only [HookEvent.slot, HookEvent.now] at *
    have := h1 (by omega)
    simp [phaseInv]; omega
  | ConnectStart n =>
    simp only [HookEvent.slot, HookEvent.now, HookEvent.isConnectStart] at *
    have hk := hcs trivial
    have a1 := h1 (by omega)
    have a2 := h2 hk
    simp only [traceHook] at h
    split at h
    · simp only [Option.some.injEq] at h
      subst h
      simp [phaseInv]; omega
    · simp only [Option.some.injEq] at h
      subst h
      simp [phaseInv]; omega
  | ConnectDone failed n =>
    simp only [HookEvent.slot, HookEvent.now] at *
    have a1 := h1 (by omega)
    have a2 := h2 (by omega)
    simp only [traceHook] at h
    split at h
    · simp at h
    · simp only [Option.some.injEq] at h
      subst h
      simp [phaseInv]; omega
  | GotConn n =>
    simp only [HookEvent.slot, HookEvent.now] at *
    have a1 := h1 (by omega)
    have a2 := h2 (by omega)
    have a3 := h3 (by omega)
    simp only [traceHook, Option.some.injEq] at h
    subst h
    simp [phaseInv]; omega
  | GotFirstResponseByte n =>
    simp only [HookEvent.slot, HookEvent.now] at *
    have a1 := h1 (by omega)
    have a2 := h2 (by omega)
    have a3 := h3 (by omega)
    have a4 := h4 (by omega)
    simp only [traceHook, Option.some.injEq] at h
    subst h
    simp [phaseInv]; omega

theorem traceHook_isSome (tt : traceTime) (e : HookEvent) (h : e.isFailedConnect = false) :
    ∃ tt', traceHook tt e = some tt' := by
  cases e with
  | ConnectDone failed n =>
    simp only [HookEvent.isFailedConnect] at h
    subst h
    exact ⟨{ tt with connDone := n }, by simp [traceHook]⟩
  | ConnectStart n =>
    simp only [traceHook]
    split <;> exact ⟨_, rfl⟩
  | _ => exact ⟨_, rfl⟩

theorem traceHook_transferStart (tt tt' : traceTime) (e : HookEvent) (h : traceHook tt e = some tt')
    (hs : e.slot ≠ 5) : tt'.transferStart = tt.transferStart := by
  cases e with
  | GotFirstResponseByte n => simp [HookEvent.slot] at hs
  | ConnectStart n =>
    simp only [traceHook] at h
    split at h <;> simp only [Option.some.injEq] at h <;> subst h <;> rfl
  | ConnectDone failed n =>
    simp only [traceHook] at h
    split at h
    · simp at h
    · simp only [Option.some.injEq] at h; subst h; rfl
  | _ => simp only [traceHook, Option.some.injEq] at h; subst h; rfl

theorem runHooks_phase (done : Int) : ∀ (evs : List HookEvent) (k j : Nat) (tt : traceTime) (lo : Int),
    phaseInv k tt lo → lifecyclePhase k evs = some j →
    List.Sorted (· ≤ ·) (lo :: (evs.map HookEvent.now ++ [done])) →
    (∀ e ∈ evs, e.isFailedConnect = false) →
    ∃ tt', runHooks tt evs = some tt' ∧ phaseInv j tt' done ∧
      ((∀ e ∈ evs, e.slot ≠ 5) → tt'.transferStart = tt.transferStart) := by
  intro evs
  induction evs with
  | nil =>
    intro k j tt lo hinv hph hs _
    simp only [lifecyclePhase, Option.some.injEq] at hph
    subst hph
    refine ⟨tt, rfl, phaseInv_mono _ _ _ _ hinv ?_, fun _ => rfl⟩
    simp [List.Sorted] at hs
    exact hs
  | cons e es ih =>
    intro k j tt lo hinv hph hs hnf
    simp only [lifecyclePhase] at hph
    split at hph
    next hc =>
      obtain ⟨tt1, h1⟩ := traceHook_isSome tt e (hnf e (List.mem_cons_self _ _))
      have hs' : List.Sorted (· ≤ ·) (e.now :: (es.map HookEvent.now ++ [done])) := by
        simp only [List.map_cons, List.cons_append] at hs
        exact (List.sorted_cons.mp hs).2
      have hlo : lo ≤ e.now := by
        simp only [List.map_cons, List.cons_append] at hs
        exact (List.sorted_cons.mp hs).1 _ (List.mem_cons_self _ _)
      have hinv1 := traceHook_phase k tt tt1 lo e hinv hc.1 hc.2 hlo h1
      obtain ⟨tt', h2, h3, h4⟩ := ih e.slot j tt1 e.now hinv1 hph hs'
        (fun x hx => hnf x (List.mem_cons_of_mem _ hx))
      refine ⟨tt', ?_, h3, ?_⟩
      · simp only [runHooks, h1, h2]
      · intro hall
        rw [h4 (fun x hx => hall x (List.mem_cons_of_mem _ hx))]
        exact traceHook_transferStart tt tt1 e h1 (hall e (List.mem_cons_self _ _))
    next => simp at hph

theorem phaseInv_zero (lo : Int) (h : 0 ≤ lo) : phaseInv 5 traceTime.zero lo := by
  simp [phaseInv, traceTime.zero, h]

/-- C2 (amended). A call that starts from unset timestamps and whose hooks, stamped by
a non-decreasing clock that starts no earlier than the zero instant, arrive in
lifecycle order and end with `GotFirstResponseByte`, or with `GotConn` and no
first-byte event, and which completes successfully no earlier than its last event,
derives its stat from timestamps with DNS-start <= DNS-done <= connect-done <=
connection-acquired <= first-byte <= completion, and each of the six durations is
non-negative. -/
theorem traceClient_Do_ordered {σ : Type} (durationString : Int → String) (t : traceClient)
    (call : NetCall σ) (res : HttpResponse σ)
    (hfresh : t.traceTime = traceTime.zero)
    (hres : call.result = .ok res)
    (hclock : List.Sorted (· ≤ ·) (0 :: (call.events.map HookEvent.now ++ [call.done])))
    (hconn : ∀ e ∈ call.events, e.isFailedConnect = false)
    (horder : lifecyclePhase 5 call.events = some 5 ∨
      (lifecyclePhase 5 call.events = some 4 ∧ ∀ e ∈ call.events, e.slot ≠ 5)) :
    ∃ t', traceClient.Do durationString t call = some (t', .ok res) ∧
      t'.traceTime.ordered call.done ∧
      0 ≤ Time.Sub t'.traceTime.dnsDone t'.traceTime.dnsStart ∧
      0 ≤ Time.Sub t'.traceTime.connDone t'.traceTime.dnsDone ∧
      0 ≤ Time.Sub t'.traceTime.gotConn t'.traceTime.connDone ∧
      0 ≤ Time.Sub t'.traceTime.transferStart t'.traceTime.gotConn ∧
      0 ≤ Time.Sub call.done t'.traceTime.transferStart ∧
      0 ≤ Time.Sub call.done t'.traceTime.dnsStart := by
  have hd : (0 : Int) ≤ call.done := by
    have := (List.sorted_cons.mp hclock).1 call.done (by simp)
    exact this
  have key : ∃ tt j, runHooks t.traceTime call.events = some tt ∧ phaseInv j tt call.done ∧
      (j = 5 ∨ (j = 4 ∧ tt.transferStart = 0)) := by
    rw [hfresh]
    rcases horder with h5 | ⟨h4, hno⟩
    · obtain ⟨tt, a, b, _⟩ := runHooks_phase call.done call.events 5 5 traceTime.zero 0
        (phaseInv_zero 0 (le_refl _)) h5 hclock hconn
      exact ⟨tt, 5, a, b, Or.inl rfl⟩
    · obtain ⟨tt, a, b, c⟩ := runHooks_phase call.done call.events 5 4 traceTime.zero 0
        (phaseInv_zero 0 (le_refl _)) h4 hclock hconn
      exact ⟨tt, 4, a, b, Or.inr ⟨rfl, c hno⟩⟩
  obtain ⟨tt, j, hrun, hinv, hj⟩ := key
  obtain ⟨h1, h2, h3, h4, h5⟩ := hinv
  have hj4 : 4 ≤ j := by rcases hj with h | h <;> omega
  have a1 := h1 (by omega)
  have a2 := h2 (by omega)
  have a3 := h3 (by omega)
  have a4 := h4 hj4
  have hT : tt.gotConn ≤ (if Time.IsZero tt.transferStart then call.done else tt.transferStart) ∧
      (if Time.IsZero tt.transferStart then call.done else tt.transferStart) ≤ call.done := by
    rcases hj with h | ⟨_, h⟩
    · have a5 := h5 (by omega)
      split <;> omega
    · simp [Time.IsZero, h]; omega
  have hS : (if Time.IsZero tt.dnsStart then tt.dnsDone else tt.dnsStart) ≤ tt.dnsDone := by
    split <;> omega
  obtain ⟨t', hdo, htt⟩ := traceClient_Do_returns durationString t call res tt hrun hres
  refine ⟨t', hdo, ?_, ?_, ?_, ?_, ?_, ?_, ?_⟩
  · rw [htt]
    simp only [traceTime.ordered]
    exact ⟨hS, a3.1, a4.1, hT.1, hT.2⟩
  all_goals (rw [htt]; apply Time.Sub_nonneg; simp only []; omega)

/-- Witness of C1 (amended): the call `dialCall` on a fresh client delivers no
`DNSStart` and no `GotFirstResponseByte`, so both slots hold the zero time when the
hooks have run; `S` is DNS-done (20) and `T` is `done` (60). -/
theorem traceClient_Do_stat_witness :
    (slotsAfter TraceRequests.Client.traceTime dialCall.events).dnsStart = 0 ∧
    (slotsAfter TraceRequests.Client.traceTime dialCall.events).transferStart = 0 ∧
    ∃ t', traceClient.Do demoDuration TraceRequests.Client dialCall = some (t', .ok demoResponse) ∧
      t'.traceStat.Status = 200 ∧
      t'.traceStat.DNSLookup = "0ns" ∧
      t'.traceStat.TCPConnection = "10ns" ∧
      t'.traceStat.TLSHandshake = "10ns" ∧
      t'.traceStat.ServerProcessing = "20ns" ∧
      t'.traceStat.ContentTransfer = "0ns" ∧
      t'.traceStat.Total = "40ns" := by
  obtain ⟨t', h, h0, h1, h2, h3, h4, h5, h6, _⟩ :=
    traceClient_Do_stat demoDuration TraceRequests.Client dialCall demoResponse (by decide) rfl
  exact ⟨by decide, by decide, t', h, h0, h1.trans (by decide), h2.trans (by decide),
    h3.trans (by decide), h4.trans (by decide), h5.trans (by decide), h6.trans (by decide)⟩

/-- Counterexample to C1 as stated.  On a fresh client, a call during which no hook
runs and which completes at a present-day clock reading leaves connection-acquired
and DNS-done at the zero time and takes `done` for `T`: the differences
`T - gotConn` and `done - S` are 63900000000000000000 ns, but the server-processing
time and the total published are the largest duration, 9223372036854775807 ns.  On a
client that is used again, a second call that delivers no DNS hook finds the
DNS-start and DNS-done of the first call (10 and 20) in the slots: DNS-start was not
set by this call, yet the DNS lookup published is 10ns, not 0, and the total is
measured from the DNS-start of the first call.  When a `ConnectDone` hook reports an
error the hook exits the process: no stat is published, though the client would
have gone on to a response. -/
theorem traceClient_Do_saturates :
    (traceClient.Do demoDuration TraceRequests.Client silentCall).map
        (fun p => (p.1.traceTime, p.1.traceStat.ServerProcessing, p.1.traceStat.Total)) =
      some ({ dnsStart := 0, dnsDone := 0, connDone := 0, gotConn := 0,
              transferStart := 63900000000000000000 },
        "9223372036854775807ns", "9223372036854775807ns") ∧
    demoDuration (63900000000000000000 - 0) = "63900000000000000000ns" ∧
    ((traceClient.Do demoDuration TraceRequests.Client demoCall).bind
        (fun p => traceClient.Do demoDuration p.1 secondCall)).map
        (fun p => (p.1.traceTime, p.1.traceStat.DNSLookup, p.1.traceStat.Total)) =
      some ({ dnsStart := 10, dnsDone := 20, connDone := 1030, gotConn := 1040,
              transferStart := 1050 },
        "10ns", "1090ns") ∧
    traceClient.Do demoDuration TraceRequests.Client fallbackCall = none := by
  refine ⟨by decide, by decide, by decide, by decide⟩

/-- Counterexample to C2 as stated: the hooks of `lateConnectCall` carry non-decreasing
clock readings and the call completes after the last of them, yet connect-done (5) is
later than connection-acquired (4) and the TLS-handshake duration is negative. -/
theorem traceClient_Do_late_connect :
    List.Sorted (· ≤ ·) (0 :: (lateConnectCall.events.map HookEvent.now ++ [lateConnectCall.done])) ∧
    (traceClient.Do demoDuration TraceRequests.Client lateConnectCall).map
        (fun p => (p.1.traceTime, p.1.traceStat.TLSHandshake)) =
      some ({ dnsStart := 1, dnsDone := 2, connDone := 5, gotConn := 4, transferStart := 6 },
        "-1ns") ∧
    ¬ traceTime.ordered
        { dnsStart := 1, dnsDone := 2, connDone := 5, gotConn := 4, transferStart := 6 } 7 ∧
    Time.Sub 4 5 = -1 := by
  refine ⟨by decide, by decide, by decide, by decide⟩

/-- Witness of C2 (amended): the call `demoCall` on a fresh client. -/
theorem traceClient_Do_ordered_witness :
    ∃ t', traceClient.Do demoDuration TraceRequests.Client demoCall = some (t', .ok demoResponse) ∧
      t'.traceTime.ordered demoCall.done ∧
      0 ≤ Time.Sub t'.traceTime.dnsDone t'.traceTime.dnsStart ∧
      0 ≤ Time.Sub t'.traceTime.connDone t'.traceTime.dnsDone ∧
      0 ≤ Time.Sub t'.traceTime.gotConn t'.traceTime.connDone ∧
      0 ≤ Time.Sub t'.traceTime.transferStart t'.traceTime.gotConn ∧
      0 ≤ Time.Sub demoCall.done t'.traceTime.transferStart ∧
      0 ≤ Time.Sub demoCall.done t'.traceTime.dnsStart :=
  traceClient_Do_ordered demoDuration TraceRequests.Client demoCall demoResponse rfl rfl
    (by decide) (by decide) (Or.inl (by decide))

/-! ## Each slot and its hook -/

theorem traceHook_frame (tt tt' : traceTime) (e : HookEvent) (h : traceHook tt e = some tt') :
    (e.slot ≠ 1 → tt'.dnsStart = tt.dnsStart) ∧
    (e.isDNSDone = false → Time.IsZero tt.dnsDone = false → tt'.dnsDone = tt.dnsDone) ∧
    (e.slot ≠ 3 → tt'.connDone = tt.connDone) ∧
    (e.slot ≠ 4 → tt'.gotConn = tt.gotConn) ∧
    (e.slot ≠ 5 → tt'.transferStart = tt.transferStart) := by
  cases e with
  | ConnectStart n =>
    simp only [traceHook] at h
    split at h
    next hz =>
      simp only [Option.some.injEq] at h
      subst h
      simp [HookEvent.slot, hz]
    next =>
      simp only [Option.some.injEq] at h
      subst h
      simp
  | ConnectDone failed n =>
    simp only [traceHook] at h
    split at h
    · simp at h
    · simp only [Option.some.injEq] at h
      subst h
      simp [HookEvent.slot]
  | _ =>
    simp only [traceHook, Option.some.injEq] at h
    subst h
    simp [HookEvent.slot, HookEvent.isDNSDone]

/-- C10 (amended). During one call a timestamp slot is changed by its own hook only: a
sequence of hook events without `DNSStart` leaves DNS-start as it was, one without
`ConnectDone` leaves connect-done, one without `GotConn` leaves connection-acquired,
one without `GotFirstResponseByte` leaves first-response-byte, and one without
`DNSDone` leaves a DNS-done slot that holds a timestamp as it was (`ConnectStart`
writes DNS-done only while it is unset).  The slot's own hook is not guarded: each
`DNSStart`, `DNSDone`, successful `ConnectDone`, `GotConn` and
`GotFirstResponseByte` event overwrites its slot with the current time, whatever the
slot held. -/
theorem runHooks_frame (tt tt' : traceTime) (evs : List HookEvent)
    (h : runHooks tt evs = some tt') :
    ((∀ e ∈ evs, e.slot ≠ 1) → tt'.dnsStart = tt.dnsStart) ∧
    ((∀ e ∈ evs, e.isDNSDone = false) → Time.IsZero tt.dnsDone = false →
      tt'.dnsDone = tt.dnsDone) ∧
    ((∀ e ∈ evs, e.slot ≠ 3) → tt'.connDone = tt.connDone) ∧
    ((∀ e ∈ evs, e.slot ≠ 4) → tt'.gotConn = tt.gotConn) ∧
    ((∀ e ∈ evs, e.slot ≠ 5) → tt'.transferStart = tt.transferStart) ∧
    (∀ (s : traceTime) (now : Int),
      traceHook s (.DNSStart now) = some { s with dnsStart := now } ∧
      traceHook s (.DNSDone now) = some { s with dnsDone := now } ∧
      traceHook s (.ConnectDone false now) = some { s with connDone := now } ∧
      traceHook s (.GotConn now) = some { s with gotConn := now } ∧
      traceHook s (.GotFirstResponseByte now) = some { s with transferStart := now }) := by
  refine ⟨?_, ?_, ?_, ?_, ?_, fun s now => ⟨rfl, rfl, rfl, rfl, rfl⟩⟩
  all_goals
    induction evs generalizing tt with
    | nil =>
      simp only [runHooks, Option.some.injEq] at h
      subst h
      intros
      rfl
    | cons e es ih =>
      simp only [runHooks] at h
      split at h
      · simp at h
      next tt1 h1 =>
        have hf := traceHook_frame tt tt1 e h1
        have hi := ih tt1 h
        first
          | (intro hall
             rw [hi (fun x hx => hall x (List.mem_cons_of_mem _ hx))]
             first
               | exact hf.1 (hall e (List.mem_cons_self _ _))
               | exact hf.2.2.1 (hall e (List.mem_cons_self _ _))
               | exact hf.2.2.2.1 (hall e (List.mem_cons_self _ _))
               | exact hf.2.2.2.2 (hall e (List.mem_cons_self _ _)))
          | (intro hall hz
             have h2 := hf.2.1 (hall e (List.mem_cons_self _ _)) hz
             rw [hi (fun x hx => hall x (List.mem_cons_of_mem _ hx)) (by rw [h2]; exact hz)]
             exact h2)

/-- Counterexample to C10 as stated: a second `DNSStart` during the same call (as when
a redirect is followed) changes the DNS-start slot that the first one had set. -/
theorem runHooks_overwrites :
    runHooks traceTime.zero [.DNSStart 1, .DNSDone 2] =
      some { dnsStart := 1, dnsDone := 2, connDone := 0, gotConn := 0, transferStart := 0 } ∧
    runHooks traceTime.zero [.DNSStart 1, .DNSDone 2, .DNSStart 3] =
      some { dnsStart := 3, dnsDone := 2, connDone := 0, gotConn := 0, transferStart := 0 } := by
  decide

/-- Witness of C10 (amended): a `ConnectStart` and a `GotConn` after DNS has been
timed leave DNS-start and the DNS-done slot, which is set, as they were. -/
theorem runHooks_frame_witness :
    runHooks { traceTime.zero with dnsStart := 1, dnsDone := 2 } [.ConnectStart 3, .GotConn 4] =
      some { dnsStart := 1, dnsDone := 2, connDone := 0, gotConn := 4, transferStart := 0 } ∧
    ({ dnsStart := 1, dnsDone := 2, connDone := 0, gotConn := 4, transferStart := 0 } : traceTime).dnsStart
      = ({ traceTime.zero with dnsStart := 1, dnsDone := 2 } : traceTime).dnsStart ∧
    ({ dnsStart := 1, dnsDone := 2, connDone := 0, gotConn := 4, transferStart := 0 } : traceTime).dnsDone
      = ({ traceTime.zero with dnsStart := 1, dnsDone := 2 } : traceTime).dnsDone :=
  have h := runHooks_frame { traceTime.zero with dnsStart := 1, dnsDone := 2 }
    { dnsStart := 1, dnsDone := 2, connDone := 0, gotConn := 4, transferStart := 0 }
    [.ConnectStart 3, .GotConn 4] (by decide)
  ⟨by decide, h.1 (by decide), h.2.1 (by decide) (by decide)⟩

/-! ## Cookies -/

theorem foldl_SetCookie (cs : List Cookie) : ∀ r : Request,
    cs.foldl Request.SetCookie r = { r with Cookies := r.Cookies ++ cs } := by
  induction cs with
  | nil => intro r; simp
  | cons c cs ih => intro r; simp [List.foldl, ih, Request.SetCookie]

theorem ClientSetCookies_Cookies (r r' : Request) (h : Request.ClientSetCookies r = some r') :
    r'.Cookies = [] := by
  unfold Request.ClientSetCookies at h
  split at h
  · split at h
    · simp at h
    · simp only [Option.some.injEq] at h
      subst h
      rfl
  next hlen =>
    simp only [Option.some.injEq] at h
    subst h
    simpa using hlen

theorem send_sent {σ V : Type} (L : Lib σ V) (net : HttpReq → NetCall σ) (clear : Bool)
    (r : Request) (res : CallResult σ) (h : Request.send L net clear r = .returned res) :
    res.sent = some r := by
  unfold Request.send at h
  cases hd : traceClient.Do L.durationString r.Client (net r.httpreq) with
  | none => rw [hd] at h; simp at h
  | some p =>
    obtain ⟨client, result⟩ := p
    rw [hd] at h
    cases result with
    | error e =>
      simp only [Run.returned.injEq] at h
      subst h
      rfl
    | ok v =>
      simp only [Run.returned.injEq] at h
      subst h
      rfl

theorem finish_sent {σ V : Type} (L : Lib σ V) (net : HttpReq → NetCall σ) (clear : Bool)
    (p : Run (Request × Option String)) (res : CallResult σ) (s : Request)
    (h : Request.finish L net clear p = .returned res) (hs : res.sent = some s) :
    p = .returned (s, none) := by
  unfold Request.finish at h
  split at h
  · simp at h
  · simp at h
  · simp only [Run.returned.injEq] at h
    subst h
    simp at hs
  next r =>
    have := send_sent L net clear r res h
    rw [this] at hs
    simp only [Option.some.injEq] at hs
    subst hs
    rfl

theorem getPrepare_Cookies {σ V : Type} (L : Lib σ V) (r s : Request) (origurl : Str)
    (args : List (Arg V))
    (h : Request.getPrepare L r origurl args = .returned (s, none)) : s.Cookies = [] := by
  unfold Request.getPrepare at h
  simp only at h
  split at h
  · simp at h
  · split at h
    · simp at h
    · split at h
      · simp at h
      next r3 h3 =>
        simp only [Run.returned.injEq, Prod.mk.injEq, and_true] at h
        subst h
        exact ClientSetCookies_Cookies _ _ h3

theorem postJsonPrepare_Cookies {σ V : Type} (L : Lib σ V) (r s : Request) (origurl : Str)
    (args : List (Arg V))
    (h : Request.postJsonPrepare L r origurl args = .returned (s, none)) : s.Cookies = [] := by
  unfold Request.postJsonPrepare at h
  simp only at h
  split at h
  · simp at h
  · simp at h
  · simp at h
  · split at h
    · simp at h
    · split at h
      · simp at h
      next r3 h3 =>
        simp only [Run.returned.injEq, Prod.mk.injEq, and_true] at h
        subst h
        exact ClientSetCookies_Cookies _ _ h3

theorem postPrepare_Cookies {σ V : Type} (L : Lib σ V) (r s : Request) (origurl : Str)
    (args : List (Arg V))
    (h : Request.postPrepare L r origurl args = .returned (s, none)) : s.Cookies = [] := by
  unfold Request.postPrepare at h
  simp only at h
  split at h
  · simp at h
  · split at h
    · simp at h
    · split at h
      · simp at h
      · split at h
        · simp at h
        next r3 h3 =>
          simp only [Run.returned.injEq, Prod.mk.injEq, and_true] at h
          subst h
          exact ClientSetCookies_Cookies _ _ h3

/-- C8 (amended). After any number of `SetCookie` calls on a request that has a URL,
`ClientSetCookies` hands the whole pending list (what was pending before, then the
cookies just added, in insertion order) to the jar in one `SetCookies` call keyed by
the request URL, and leaves the pending list empty; with nothing pending the jar is
not called.  Hence in `Get`, `Post` and `PostJson` the request that goes on to
`Client.Do` has an empty pending list, and so has the request recorded at the moment
`Client.Do` was invoked. -/
theorem ClientSetCookies_flushes {σ V : Type} (L : Lib σ V) (net : HttpReq → NetCall σ)
    (r : Request) (u : URL) (cs : List Cookie) (hurl : r.httpreq.URL = some u) :
    Request.ClientSetCookies (cs.foldl Request.SetCookie r) =
        some { r with
          Cookies := [],
          Client := { r.Client with
            Jar := if r.Cookies ++ cs = [] then r.Client.Jar
              else r.Client.Jar ++ [(u, r.Cookies ++ cs)] } } ∧
    (∀ (r0 s : Request) (origurl : Str) (args : List (Arg V)),
      (Request.getPrepare L r0 origurl args = .returned (s, none) ∨
        Request.postPrepare L r0 origurl args = .returned (s, none) ∨
        Request.postJsonPrepare L r0 origurl args = .returned (s, none)) →
      s.Cookies = []) ∧
    (∀ (r0 : Request) (origurl : Str) (args : List (Arg V)) (res : CallResult σ) (s : Request),
      (Request.Get L net r0 origurl args = .returned res ∨
        Request.Post L net r0 origurl args = .returned res ∨
        Request.PostJson L net r0 origurl args = .returned res) →
      res.sent = some s → s.Cookies = []) := by
  refine ⟨?_, ?_, ?_⟩
  · rw [foldl_SetCookie]
    unfold Request.ClientSetCookies
    by_cases hc : r.Cookies ++ cs = []
    · have h1 : r.Cookies = [] := (List.append_eq_nil.mp hc).1
      have h2 : cs = [] := (List.append_eq_nil.mp hc).2
      subst h2
      simp [h1]
    · have hlen : (r.Cookies ++ cs).length > 0 := List.length_pos.mpr hc
      simp only [hlen, if_true, hurl, Request.ClearCookies, hc, if_false]
  · intro r0 s origurl args h
    rcases h with h | h | h
    · exact getPrepare_Cookies L r0 s origurl args h
    · exact postPrepare_Cookies L r0 s origurl args h
    · exact postJsonPrepare_Cookies L r0 s origurl args h
  · intro r0 origurl args res s h hs
    rcases h with h | h | h
    · exact getPrepare_Cookies L r0 s origurl args (finish_sent L net false _ res s h hs)
    · exact postPrepare_Cookies L r0 s origurl args (finish_sent L net true _ res s h hs)
    · exact postJsonPrepare_Cookies L r0 s origurl args (finish_sent L net true _ res s h hs)

/-- Witness of C8 (amended): two cookies set on `demoRequest` reach the jar in order under its
URL, and a `Get` that follows two `SetCookie` calls invokes `Client.Do` with an empty
pending list. -/
theorem ClientSetCookies_flushes_witness :
    Request.ClientSetCookies
        ([⟨bytes "a", bytes "1"⟩, ⟨bytes "b", bytes "2"⟩].foldl Request.SetCookie demoRequest) =
      some { demoRequest with
        Cookies := [],
        Client := { demoRequest.Client with
          Jar := [({ Scheme := bytes "http", Host := bytes "x", Path := bytes "/y" },
            [⟨bytes "a", bytes "1"⟩, ⟨bytes "b", bytes "2"⟩])] } } ∧
    (match Request.Get demoLib (demoNet (bytes "ok"))
        ((TraceRequests.SetCookie ⟨bytes "a", bytes "1"⟩).SetCookie ⟨bytes "b", bytes "2"⟩)
        (bytes "http://x/y") [] with
      | .returned res => res.sent.map (fun s => (s.Cookies, s.Client.Jar))
      | _ => none) =
      some ([], [({ Scheme := bytes "http", Host := bytes "x", Path := bytes "/y" },
        [⟨bytes "a", bytes "1"⟩, ⟨bytes "b", bytes "2"⟩])]) :=
  ⟨(ClientSetCookies_flushes demoLib (demoNet (bytes "ok")) demoRequest
      { Scheme := bytes "http", Host := bytes "x", Path := bytes "/y" }
      [⟨bytes "a", bytes "1"⟩, ⟨bytes "b", bytes "2"⟩] rfl).1,
    by decide⟩

/-- Counterexample to C8 as stated: a request fresh from `TraceRequests` has no URL.
After one `SetCookie` the cookie is pending, and `ClientSetCookies` hands the jar a
nil URL together with the cookie, on which the jar panics: the cookie does not reach
the jar and the pending list is not cleared. -/
theorem ClientSetCookies_nil_url :
    TraceRequests.httpreq.URL = none ∧
    (TraceRequests.SetCookie ⟨bytes "a", bytes "1"⟩).Cookies = [⟨bytes "a", bytes "1"⟩] ∧
    Request.ClientSetCookies (TraceRequests.SetCookie ⟨bytes "a", bytes "1"⟩) = none := by
  refine ⟨by decide, by decide, by decide⟩

/-! ## Malformed URLs and the body after a POST -/

theorem send_clearBody {σ V : Type} (L : Lib σ V) (net : HttpReq → NetCall σ) (r : Request)
    (res : CallResult σ) (h : Request.send L net true r = .returned res) :
    res.req.httpreq.Body = none ∧ res.req.httpreq.GetBody = none ∧
      res.req.httpreq.ContentLength = 0 := by
  unfold Request.send at h
  cases hd : traceClient.Do L.durationString r.Client (net r.httpreq) with
  | none => rw [hd] at h; simp at h
  | some p =>
    obtain ⟨client, result⟩ := p
    rw [hd] at h
    cases result with
    | error e =>
      simp only [Run.returned.injEq] at h
      subst h
      exact ⟨rfl, rfl, rfl⟩
    | ok v =>
      simp only [Run.returned.injEq] at h
      subst h
      exact ⟨rfl, rfl, rfl⟩

theorem getPrepare_malformed {σ V : Type} (L : Lib σ V) (r r2 : Request) (origurl : Str)
    (args : List (Arg V)) (params : List (List (Str × Str))) (err : String) (u0 : URL)
    (hbad : L.url.Parse origurl = .error err) (hempty : L.url.Parse [] = .ok u0)
    (hargs : getArgs L
      { r with httpreq := { r.httpreq with
          Method := bytes "GET", Header := HeaderMap.delete r.httpreq.Header (bytes "Cookie") } }
      [] args = some (r2, params)) :
    ∃ r3, Request.getPrepare L r origurl args = .returned (r3, none) ∧
      r3.httpreq.URL = some u0 := by
  unfold Request.getPrepare
  simp only [hargs, buildURLParams, hbad, hempty]
  by_cases hc : r2.Cookies.length > 0 <;> simp [Request.ClientSetCookies, hc, Request.ClearCookies]

/-- C6 (code bug). The target `:bad` is rejected by the URL parser (`missing protocol
scheme`).  `PostJson` returns that error without invoking `Client.Do`.  `Get` and
`Post` drop the error of `buildURLParams`, parse the empty string it returned, and
invoke `Client.Do` with the empty URL; the error they return is the client's. -/
theorem malformed_url_reaches_Do :
    netUrl.Parse (bytes ":bad") = .error "missing protocol scheme" ∧
    (match Request.PostJson demoLib (demoNet []) TraceRequests (bytes ":bad") [] with
      | .returned res => some (res.sent.map (fun s => s.httpreq.URL), res.resp)
      | _ => none) = some (none, .error "missing protocol scheme") ∧
    (match Request.Get demoLib (demoNet []) TraceRequests (bytes ":bad") [] with
      | .returned res => some (res.sent.map (fun s => s.httpreq.URL), res.resp)
      | _ => none) = some (some (some {}), .error "unsupported protocol scheme") ∧
    (match Request.Post demoLib (demoNet []) TraceRequests (bytes ":bad") [] with
      | .returned res => some (res.sent.map (fun s => s.httpreq.URL), res.resp)
      | _ => none) = some (some (some {}), .error "unsupported protocol scheme") := by
  refine ⟨by decide, by decide, by decide, by decide⟩

/-- C7 (code bug). `PostJson` returns before the statements that clear the body when
the URL does not parse or a value cannot be JSON-encoded: the body set earlier in
the same call (`payload`) is still attached to the request on return, while after a
call that reached `Client.Do` the body is cleared. -/
theorem PostJson_early_return_keeps_body :
    (match Request.PostJson demoLib (demoNet []) TraceRequests (bytes ":bad")
        [.string (bytes "payload")] with
      | .returned res => some (res.sent.isSome, res.resp, res.req.httpreq.Body)
      | _ => none) = some (false, .error "missing protocol scheme", some (bytes "payload")) ∧
    (match Request.PostJson demoLib (demoNet []) TraceRequests (bytes "http://x/y")
        [.string (bytes "payload"), .other .chan] with
      | .returned res => some (res.sent.isSome, res.resp, res.req.httpreq.Body)
      | _ => none) =
      some (false, .error "json: unsupported type: chan int", some (bytes "payload")) ∧
    (match Request.PostJson demoLib (demoNet []) TraceRequests (bytes "http://x/y")
        [.string (bytes "payload")] with
      | .returned res => some (res.sent.isSome, res.req.httpreq.Body)
      | _ => none) = some (true, none) := by
  refine ⟨by decide, by decide, by decide⟩

/-! ## The JSON body of `PostJson` -/

theorem find?_filter_of_imp {α : Type} (p q : α → Bool) (l : List α)
    (h : ∀ x, p x = true → q x = true) : (l.filter q).find? p = l.find? p := by
  induction l with
  | nil => rfl
  | cons a l ih =>
    by_cases hq : q a = true
    · rw [List.filter_cons_of_pos hq, List.find?_cons, List.find?_cons, ih]
    · have hp : p a = false := by
        cases hp : p a
        · rfl
        · exact absurd (h a hp) hq
      rw [List.filter_cons_of_neg hq, List.find?_cons, hp, ih]

theorem HeaderMap.Get_Set (h : HeaderMap) (key value : Str) :
    HeaderMap.Get (HeaderMap.Set h key value) key = value := by
  unfold HeaderMap.Get HeaderMap.Set
  by_cases hany : h.any (fun e => decide (e.1 = CanonicalMIMEHeaderKey key)) = true
  · rw [if_pos hany]
    induction h with
    | nil => simp at hany
    | cons e es ih =>
      by_cases he : e.1 = CanonicalMIMEHeaderKey key
      · simp [List.find?, he]
      · have : es.any (fun e => decide (e.1 = CanonicalMIMEHeaderKey key)) = true := by
          simpa [he] using hany
        simp only [List.map_cons, he, if_false, List.find?, decide_False]
        exact ih this
  · rw [if_neg hany, List.find?_append]
    have : h.find? (fun e => decide (e.1 = CanonicalMIMEHeaderKey key)) = none := by
      rw [List.find?_eq_none]
      intro x hx
      simp only [Bool.not_eq_true, List.any_eq_false] at hany
      simpa using hany x hx
    simp [this]

theorem HeaderMap.Get_delete (h : HeaderMap) (key other : Str)
    (hne : CanonicalMIMEHeaderKey key ≠ other) :
    HeaderMap.Get (HeaderMap.delete h other) key = HeaderMap.Get h key := by
  unfold HeaderMap.Get HeaderMap.delete
  rw [find?_filter_of_imp]
  intro x hx
  have hx' : x.1 = CanonicalMIMEHeaderKey key := by simpa using hx
  have : x.1 ≠ other := by rw [hx']; exact hne
  simpa using this

theorem HeaderMap.Get_Set_ne (h : HeaderMap) (key value other : Str)
    (hne : CanonicalMIMEHeaderKey key ≠ CanonicalMIMEHeaderKey other) :
    HeaderMap.Get (HeaderMap.Set h key value) other = HeaderMap.Get h other := by
  unfold HeaderMap.Get HeaderMap.Set
  by_cases hany : h.any (fun e => decide (e.1 = CanonicalMIMEHeaderKey key)) = true
  · rw [if_pos hany]
    have : ∀ l : HeaderMap,
        (l.map (fun e => if e.1 = CanonicalMIMEHeaderKey key then (e.1, [value]) else e)).find?
            (fun e => decide (e.1 = CanonicalMIMEHeaderKey other)) =
          l.find? (fun e => decide (e.1 = CanonicalMIMEHeaderKey other)) := by
      intro l
      induction l with
      | nil => rfl
      | cons e es ih =>
        by_cases he : e.1 = CanonicalMIMEHeaderKey key
        · have he2 : ¬ e.1 = CanonicalMIMEHeaderKey other := fun h2 => hne (he.symm.trans h2)
          simp only [List.map_cons, he, if_true, List.find?_cons] at ih ⊢
          rw [he] at he2
          simp only [he2, decide_False, ih]
        · simp only [List.map_cons, he, if_false, List.find?_cons, ih]
    rw [this]
  · rw [if_neg hany, List.find?_append]
    have hne2 : ¬ CanonicalMIMEHeaderKey key = CanonicalMIMEHeaderKey other := hne
    simp [hne2]

theorem postJsonArgs_append {σ V : Type} (L : Lib σ V) (rest : List (Arg V)) :
    ∀ (pre : List (Arg V)) (r s : Request), postJsonArgs L r pre = .returned (s, none) →
      postJsonArgs L r (pre ++ rest) = postJsonArgs L s rest := by
  intro pre
  induction pre with
  | nil =>
    intro r s h
    simp only [postJsonArgs, Run.returned.injEq, Prod.mk.injEq, and_true] at h
    subst h
    rfl
  | cons a pre ih =>
    intro r s h
    cases a with
    | Header a => exact ih _ _ h
    | string x => exact ih _ _ h
    | Auth a =>
      rcases a with _ | ⟨u, _ | ⟨p, t⟩⟩
      · simp [postJsonArgs] at h
      · simp [postJsonArgs] at h
      · exact ih _ _ h
    | Params a =>
      simp only [postJsonArgs, List.cons_append] at h ⊢
      cases hj : jsonEncode L.marshal (L.ofMap a) with
      | error e => rw [hj] at h; simp at h
      | ok b => rw [hj] at h; exact ih _ _ h
    | Datas a =>
      simp only [postJsonArgs, List.cons_append] at h ⊢
      cases hj : jsonEncode L.marshal (L.ofMap a) with
      | error e => rw [hj] at h; simp at h
      | ok b => rw [hj] at h; exact ih _ _ h
    | Files a =>
      simp only [postJsonArgs, List.cons_append] at h ⊢
      cases hj : jsonEncode L.marshal (L.ofMap a) with
      | error e => rw [hj] at h; simp at h
      | ok b => rw [hj] at h; exact ih _ _ h
    | other v =>
      simp only [postJsonArgs, List.cons_append] at h ⊢
      cases hj : jsonEncode L.marshal v with
      | error e => rw [hj] at h; simp at h
      | ok b => rw [hj] at h; exact ih _ _ h

theorem jsonEncode_of_toBool {V : Type} (marshal : V → Except String Str) (v : V)
    (h : (marshal v).toBool = true) : ∃ b, jsonEncode marshal v = .ok b := by
  unfold jsonEncode
  cases hm : marshal v with
  | error e => rw [hm] at h; simp [Except.toBool] at h
  | ok b => exact ⟨_, rfl⟩

theorem postJsonArgs_passes {σ V : Type} (L : Lib σ V) :
    ∀ (args : List (Arg V)) (r : Request),
      (∀ a ∈ args, a.isHeader = false) → (∀ a ∈ args, a.passes L = true) →
      ∃ s, postJsonArgs L r args = .returned (s, none) ∧
        HeaderMap.Get s.httpreq.Header (bytes "Content-Type") =
          HeaderMap.Get r.httpreq.Header (bytes "Content-Type") ∧
        ((∀ a ∈ args, a.setsBody = false) → s.httpreq.Body = r.httpreq.Body) := by
  have hauth : CanonicalMIMEHeaderKey (bytes "Authorization") ≠
      CanonicalMIMEHeaderKey (bytes "Content-Type") := by decide
  intro args
  induction args with
  | nil => intro r _ _; exact ⟨r, rfl, rfl, fun _ => rfl⟩
  | cons a args ih =>
    intro r hh hp
    have hh1 := hh a (List.mem_cons_self _ _)
    have hp1 := hp a (List.mem_cons_self _ _)
    have hh2 : ∀ x ∈ args, x.isHeader = false := fun x hx => hh x (List.mem_cons_of_mem _ hx)
    have hp2 : ∀ x ∈ args, x.passes L = true := fun x hx => hp x (List.mem_cons_of_mem _ hx)
    cases a with
    | Header a => simp [Arg.isHeader] at hh1
    | string x =>
      obtain ⟨s, h1, h2, _⟩ := ih (r.setBodyRawBytes x) hh2 hp2
      refine ⟨s, h1, h2, ?_⟩
      intro hb
      have := hb _ (List.mem_cons_self _ _)
      simp [Arg.setsBody] at this
    | Auth a =>
      rcases a with _ | ⟨u, _ | ⟨p, t⟩⟩
      · simp [Arg.passes] at hp1
      · simp [Arg.passes] at hp1
      · obtain ⟨s, h1, h2, h3⟩ := ih (r.SetBasicAuth L u p) hh2 hp2
        refine ⟨s, h1, ?_, ?_⟩
        · rw [h2]
          exact HeaderMap.Get_Set_ne _ _ _ _ hauth
        · intro hb
          rw [h3 (fun x hx => hb x (List.mem_cons_of_mem _ hx))]
          rfl
    | Params a =>
      obtain ⟨b, hb⟩ := jsonEncode_of_toBool L.marshal (L.ofMap a) hp1
      obtain ⟨s, h1, h2, _⟩ := ih (r.setBodyRawBytes b) hh2 hp2
      refine ⟨s, ?_, h2, ?_⟩
      · simp only [postJsonArgs, hb]; exact h1
      · intro hb
        have := hb _ (List.mem_cons_self _ _)
        simp [Arg.setsBody] at this
    | Datas a =>
      obtain ⟨b, hb⟩ := jsonEncode_of_toBool L.marshal (L.ofMap a) hp1
      obtain ⟨s, h1, h2, _⟩ := ih (r.setBodyRawBytes b) hh2 hp2
      refine ⟨s, ?_, h2, ?_⟩
      · simp only [postJsonArgs, hb]; exact h1
      · intro hb
        have := hb _ (List.mem_cons_self _ _)
        simp [Arg.setsBody] at this
    | Files a =>
      obtain ⟨b, hb⟩ := jsonEncode_of_toBool L.marshal (L.ofMap a) hp1
      obtain ⟨s, h1, h2, _⟩ := ih (r.setBodyRawBytes b) hh2 hp2
      refine ⟨s, ?_, h2, ?_⟩
      · simp only [postJsonArgs, hb]; exact h1
      · intro hb
        have := hb _ (List.mem_cons_self _ _)
        simp [Arg.setsBody] at this
    | other v =>
      obtain ⟨b, hb⟩ := jsonEncode_of_toBool L.marshal v hp1
      obtain ⟨s, h1, h2, _⟩ := ih (r.setBodyRawBytes b) hh2 hp2
      refine ⟨s, ?_, h2, ?_⟩
      · simp only [postJsonArgs, hb]; exact h1
      · intro hb
        have := hb _ (List.mem_cons_self _ _)
        simp [Arg.setsBody] at this

theorem postJsonArgs_value {σ V : Type} (L : Lib σ V) (r : Request) (arg : Arg V)
    (rest : List (Arg V)) (v : V) (b : Str) (hval : arg.jsonValue L = some v)
    (hm : L.marshal v = .ok b) :
    postJsonArgs L r (arg :: rest) = postJsonArgs L (r.setBodyRawBytes (b ++ [ch '\n'])) rest := by
  cases arg with
  | Header a => simp [Arg.jsonValue] at hval
  | string x => simp [Arg.jsonValue] at hval
  | Auth a => simp [Arg.jsonValue] at hval
  | Params a =>
    simp only [Arg.jsonValue, Option.some.injEq] at hval
    simp only [postJsonArgs, jsonEncode, hval, hm, Except.map]
  | Datas a =>
    simp only [Arg.jsonValue, Option.some.injEq] at hval
    simp only [postJsonArgs, jsonEncode, hval, hm, Except.map]
  | Files a =>
    simp only [Arg.jsonValue, Option.some.injEq] at hval
    simp only [postJsonArgs, jsonEncode, hval, hm, Except.map]
  | other w =>
    simp only [Arg.jsonValue, Option.some.injEq] at hval
    simp only [postJsonArgs, jsonEncode, hval, hm, Except.map]

/-- C3 (amended). `PostJson` is called for a target URL that parses, with no `Header`
option among its arguments and with a structured value that can be serialized (`arg`,
holding the value `v`), which is the last argument that sets the body: the arguments
after it (`post`) are neither a `string` nor a value to encode.  The loop gets past
the other arguments: every `Auth` option has its two entries and every value before
`v` can be serialized.  Then `PostJson` hands `Client.Do` a request whose body is the
JSON encoding of `v` followed by one newline byte, and whose `Content-Type` header is
`application/json`. -/
theorem PostJson_body {σ V : Type} (L : Lib σ V) (net : HttpReq → NetCall σ) (r : Request)
    (origurl : Str) (pre post : List (Arg V)) (arg : Arg V) (v : V) (b : Str) (URL : URL)
    (hheader : ∀ a ∈ pre ++ arg :: post, a.isHeader = false)
    (hval : arg.jsonValue L = some v)
    (hlast : ∀ a ∈ post, a.setsBody = false)
    (hpass : ∀ a ∈ pre ++ post, a.passes L = true)
    (hm : L.marshal v = .ok b) (hu : L.url.Parse origurl = .ok URL) :
    ∃ s, Request.postJsonPrepare L r origurl (pre ++ arg :: post) = .returned (s, none) ∧
      Request.PostJson L net r origurl (pre ++ arg :: post) = Request.send L net true s ∧
      s.httpreq.Body = some (b ++ [ch '\n']) ∧
      HeaderMap.Get s.httpreq.Header (bytes "Content-Type") = bytes "application/json" := by
  have hct : CanonicalMIMEHeaderKey (bytes "Content-Type") ≠ bytes "Cookie" := by decide
  have hprep : ∃ s, Request.postJsonPrepare L r origurl (pre ++ arg :: post) = .returned (s, none) ∧
      s.httpreq.Body = some (b ++ [ch '\n']) ∧
      HeaderMap.Get s.httpreq.Header (bytes "Content-Type") = bytes "application/json" := by
    unfold Request.postJsonPrepare
    simp only []
    generalize hr1 : ({ r with httpreq := { r.httpreq with
      Method := bytes "POST",
      Header := HeaderMap.delete
        (HeaderMap.Set r.httpreq.Header (bytes "Content-Type") (bytes "application/json"))
        (bytes "Cookie") } } : Request) = r1
    have hr1ct : HeaderMap.Get r1.httpreq.Header (bytes "Content-Type") =
        bytes "application/json" := by
      rw [← hr1]
      simp only []
      rw [HeaderMap.Get_delete _ _ _ hct, HeaderMap.Get_Set]
    obtain ⟨s1, hs1, hct1, _⟩ := postJsonArgs_passes L pre r1
      (fun a ha => hheader a (List.mem_append_left _ ha))
      (fun a ha => hpass a (List.mem_append_left _ ha))
    obtain ⟨s2, hs2, hct2, hbody2⟩ := postJsonArgs_passes L post
      (s1.setBodyRawBytes (b ++ [ch '\n']))
      (fun a ha => hheader a (List.mem_append_right _ (List.mem_cons_of_mem _ ha)))
      (fun a ha => hpass a (List.mem_append_right _ ha))
    have hargs : postJsonArgs L r1 (pre ++ arg :: post) = .returned (s2, none) := by
      rw [postJsonArgs_append L (arg :: post) pre r1 s1 hs1,
        postJsonArgs_value L s1 arg post v b hval hm, hs2]
    have hs2body : s2.httpreq.Body = some (b ++ [ch '\n']) := by
      rw [hbody2 hlast]
      rfl
    have hs2ct : HeaderMap.Get s2.httpreq.Header (bytes "Content-Type") =
        bytes "application/json" := by
      rw [hct2]
      show HeaderMap.Get s1.httpreq.Header (bytes "Content-Type") = _
      rw [hct1, hr1ct]
    rw [hargs]
    simp only [hu]
    by_cases hc : s2.Cookies.length > 0
    · simp only [Request.ClientSetCookies, hc, if_true, Request.ClearCookies]
      exact ⟨_, rfl, hs2body, hs2ct⟩
    · simp only [Request.ClientSetCookies, hc, if_false]
      exact ⟨_, rfl, hs2body, hs2ct⟩
  obtain ⟨s, h1, h2, h3⟩ := hprep
  refine ⟨s, h1, ?_, h2, h3⟩
  unfold Request.PostJson
  rw [h1]
  rfl

/-- Counterexample to C3 as stated: for the value `{"id": 7}`, whose JSON encoding is
the 8 bytes `{"id":7}`, the body `PostJson` sends is 9 bytes long: the encoding and a
newline after it.  The remaining lines show what the amended statement assumes of the
other arguments, none of which is a `Header`: a `string` after the value replaces the
body; an `Auth` option with one entry makes `PostJson` panic; a value before it that
cannot be serialized, or a target URL that does not parse, makes `PostJson` return
the error without sending a request. -/
theorem PostJson_body_newline :
    demoLib.marshal (.object [(bytes "id", .inl 7)]) = .ok (bytes "\x7b\"id\":7\x7d") ∧
    (match Request.PostJson demoLib (demoNet []) TraceRequests (bytes "http://x/y")
        [.other (.object [(bytes "id", .inl 7)])] with
      | .returned res => res.sent.map (fun s => s.httpreq.Body)
      | _ => none) = some (some (bytes "\x7b\"id\":7\x7d\n")) ∧
    bytes "\x7b\"id\":7\x7d\n" ≠ bytes "\x7b\"id\":7\x7d" ∧
    (match Request.PostJson demoLib (demoNet []) TraceRequests (bytes "http://x/y")
        [.other (.object [(bytes "id", .inl 7)]), .string (bytes "raw")] with
      | .returned res => res.sent.map (fun s => s.httpreq.Body)
      | _ => none) = some (some (bytes "raw")) ∧
    Request.PostJson demoLib (demoNet []) TraceRequests (bytes "http://x/y")
        [.Auth [bytes "user"], .other (.object [(bytes "id", .inl 7)])] = .panicked ∧
    (match Request.PostJson demoLib (demoNet []) TraceRequests (bytes "http://x/y")
        [.other .chan, .other (.object [(bytes "id", .inl 7)])] with
      | .returned res => some (res.sent.isSome, res.resp)
      | _ => none) = some (false, .error "json: unsupported type: chan int") ∧
    (match Request.PostJson demoLib (demoNet []) TraceRequests (bytes ":bad")
        [.other (.object [(bytes "id", .inl 7)])] with
      | .returned res => some (res.sent.isSome, res.resp)
      | _ => none) = some (false, .error "missing protocol scheme") := by
  refine ⟨by decide, by decide, by decide, by decide, by decide, by decide, by decide⟩

/-- Witness of C3 (amended): the value `{"id": 7}` posted to `http://x/y` after a
`string` argument and before an `Auth` option. -/
theorem PostJson_body_witness :
    ∃ s, Request.postJsonPrepare demoLib TraceRequests (bytes "http://x/y")
        [.string (bytes "draft"), .other (.object [(bytes "id", .inl 7)]),
          .Auth [bytes "user", bytes "pw"]] = .returned (s, none) ∧
      Request.PostJson demoLib (demoNet []) TraceRequests (bytes "http://x/y")
        [.string (bytes "draft"), .other (.object [(bytes "id", .inl 7)]),
          .Auth [bytes "user", bytes "pw"]] = Request.send demoLib (demoNet []) true s ∧
      s.httpreq.Body = some (bytes "\x7b\"id\":7\x7d\n") ∧
      HeaderMap.Get s.httpreq.Header (bytes "Content-Type") = bytes "application/json" :=
  PostJson_body demoLib (demoNet []) TraceRequests (bytes "http://x/y")
    [.string (bytes "draft")] [.Auth [bytes "user", bytes "pw"]]
    (.other (.object [(bytes "id", .inl 7)])) (.object [(bytes "id", .inl 7)])
    (bytes "\x7b\"id\":7\x7d")
    { Scheme := bytes "http", Host := bytes "x", Path := bytes "/y" }
    (by decide) rfl (by decide) (by decide) (by decide) (by decide)

/-! ## `Response.Content` -/

theorem Content_of_cached {σ : Type} (B : BodyLib σ) (resp : Response σ)
    (h : 0 < sliceLen resp.content) : Response.Content B resp = (resp.content, resp) := by
  unfold Response.Content
  rw [if_pos h]

theorem Content_nonempty {σ : Type} (B : BodyLib σ) (resp : Response σ) :
    0 < sliceLen (Response.Content B resp).1 →
    (Response.Content B resp).2.content = (Response.Content B resp).1 ∧
      (Response.Content B resp).2.reads ≤ resp.reads + 1 := by
  unfold Response.Content
  by_cases hc : sliceLen resp.content > 0
  · rw [if_pos hc]
    intro _
    exact ⟨rfl, Nat.le_succ _⟩
  · rw [if_neg hc]
    by_cases hz : HeaderMap.Get resp.R.Header (bytes "Content-Encoding") = bytes "gzip"
        ∧ HeaderMap.Get resp.req.httpreq.Header (bytes "Accept-Encoding") ≠ []
    · rw [if_pos hz]
      cases hg : B.GzipReadAll resp.R.Body with
      | mk o b =>
        cases o with
        | none => simp [sliceLen]
        | some p =>
          obtain ⟨data, failed⟩ := p
          cases failed <;> simp [sliceLen]
    · rw [if_neg hz]
      cases hr : B.ReadAll resp.R.Body with
      | mk p b =>
        obtain ⟨data, failed⟩ := p
        cases failed <;> simp [sliceLen]

/-- C4 (amended). When a call of `Content()` returns a non-empty result, a second call
in a row returns the same bytes and leaves the response as it is, body stream and
read counter included: the cached bytes are returned without reading, and the two
calls together read the stream at most once.  Only a non-empty cache counts as
cached: when the cache is empty after a call (as after reading an empty body), the
next call reads the stream again. -/
theorem Content_twice {σ : Type} (B : BodyLib σ) (resp : Response σ) :
    (0 < sliceLen (Response.Content B resp).1 →
      Response.Content B (Response.Content B resp).2 =
          ((Response.Content B resp).1, (Response.Content B resp).2) ∧
        (Response.Content B (Response.Content B resp).2).2.reads ≤ resp.reads + 1) ∧
    (sliceLen (Response.Content B resp).2.content = 0 →
      (Response.Content B (Response.Content B resp).2).2.reads =
        (Response.Content B resp).2.reads + 1) := by
  constructor
  · intro h
    obtain ⟨h1, h2⟩ := Content_nonempty B resp h
    have hc : 0 < sliceLen (Response.Content B resp).2.content := by rw [h1]; exact h
    rw [Content_of_cached B _ hc, h1]
    exact ⟨rfl, h2⟩
  · intro h
    generalize (Response.Content B resp).2 = r1 at h ⊢
    unfold Response.Content
    have hc : ¬ sliceLen r1.content > 0 := by omega
    rw [if_neg hc]
    split
    · cases hg : B.GzipReadAll r1.R.Body with
      | mk o b =>
        cases o with
        | none => rfl
        | some p => rfl
    · cases hr : B.ReadAll r1.R.Body with
      | mk p b => rfl

/-- Counterexample to C4 as stated.  With an empty body both calls return no bytes,
but each of them reads the stream: two reads.  With a body whose read fails after
the bytes `par`, the first call returns nil and the second returns `par`. -/
theorem Content_twice_differs :
    ((Response.Content streamLib (demoResp ⟨[], none, false, false⟩)).1,
      (Response.Content streamLib (demoResp ⟨[], none, false, false⟩)).2.reads,
      (Response.Content streamLib
        (Response.Content streamLib (demoResp ⟨[], none, false, false⟩)).2).1,
      (Response.Content streamLib
        (Response.Content streamLib (demoResp ⟨[], none, false, false⟩)).2).2.reads) =
      (some [], 1, some [], 2) ∧
    ((Response.Content streamLib (demoResp ⟨bytes "par", none, true, false⟩)).1,
      (Response.Content streamLib
        (Response.Content streamLib (demoResp ⟨bytes "par", none, true, false⟩)).2).1,
      (Response.Content streamLib
        (Response.Content streamLib (demoResp ⟨bytes "par", none, true, false⟩)).2).2.reads) =
      (none, some (bytes "par"), 1) := by
  refine ⟨by decide, by decide⟩

/-- Witness of C4 (amended): a body `hello` is read once and then served from the
cache; an empty body is read by each call. -/
theorem Content_twice_witness :
    (Response.Content streamLib
        (Response.Content streamLib (demoResp ⟨bytes "hello", none, false, false⟩)).2 =
      ((Response.Content streamLib (demoResp ⟨bytes "hello", none, false, false⟩)).1,
        (Response.Content streamLib (demoResp ⟨bytes "hello", none, false, false⟩)).2) ∧
      (Response.Content streamLib
        (Response.Content streamLib
          (demoResp ⟨bytes "hello", none, false, false⟩)).2).2.reads ≤ 0 + 1) ∧
    (Response.Content streamLib (demoResp ⟨bytes "hello", none, false, false⟩)).1 =
      some (bytes "hello") :=
  ⟨(Content_twice streamLib (demoResp ⟨bytes "hello", none, false, false⟩)).1 (by decide),
    by decide⟩

/-! ## Query strings: `Encode` and `ParseQuery` -/

set_option maxRecDepth 100000 in
theorem escapeByte_cases : ∀ c : Byte,
    (escapeByte c = [c] ∧ c ≠ ch '%' ∧ c ≠ ch '+') ∨ (escapeByte c = [ch '+'] ∧ c = ch ' ') ∨
    (escapeByte c = [ch '%', upperhex (c.val / 16), upperhex (c.val % 16)] ∧
      ishex (upperhex (c.val / 16)) = true ∧ ishex (upperhex (c.val % 16)) = true ∧
      unhex (upperhex (c.val / 16)) * 16 + unhex (upperhex (c.val % 16)) = c) := by
  decide

set_option maxRecDepth 100000 in
theorem escapeByte_no_sep_all : ∀ c : Byte,
    (escapeByte c).all (fun x => decide (x ≠ ch '&') && decide (x ≠ ch '=') && decide (x ≠ ch ';'))
      = true := by
  decide

theorem escapeByte_no_sep (c : Byte) : ∀ x ∈ escapeByte c,
    x ≠ ch '&' ∧ x ≠ ch '=' ∧ x ≠ ch ';' := by
  intro x hx
  have h := List.all_eq_true.mp (escapeByte_no_sep_all c) x hx
  simpa [and_assoc] using h

theorem QueryEscape_no_sep (s : Str) : ∀ x ∈ QueryEscape s,
    x ≠ ch '&' ∧ x ≠ ch '=' ∧ x ≠ ch ';' := by
  induction s with
  | nil => intro x hx; simp [QueryEscape] at hx
  | cons c cs ih =>
    intro x hx
    simp only [QueryEscape, List.mem_append] at hx
    rcases hx with hx | hx
    · exact escapeByte_no_sep c x hx
    · exact ih x hx

theorem QueryUnescape_cons (c : Byte) (rest : Str) (h : c ≠ ch '%') :
    QueryUnescape (c :: rest) =
      if c = ch '+' then (QueryUnescape rest).map (fun t => ch ' ' :: t)
      else (QueryUnescape rest).map (fun t => c :: t) := by
  rcases rest with _ | ⟨a, _ | ⟨b, r⟩⟩ <;> simp [QueryUnescape, h]

theorem QueryUnescape_percent (a b : Byte) (rest : Str) :
    QueryUnescape (ch '%' :: a :: b :: rest) =
      if (ishex a && ishex b) = true then
        (QueryUnescape rest).map (fun t => (unhex a * 16 + unhex b) :: t)
      else .error "invalid URL escape" := by
  simp [QueryUnescape]

theorem QueryUnescape_escapeByte (c : Byte) (rest : Str) :
    QueryUnescape (escapeByte c ++ rest) = (QueryUnescape rest).map (fun t => c :: t) := by
  rcases escapeByte_cases c with ⟨h, h1, h2⟩ | ⟨h, h1⟩ | ⟨h, h1, h2, h3⟩
  · rw [h]
    show QueryUnescape (c :: rest) = _
    rw [QueryUnescape_cons _ _ h1, if_neg h2]
  · rw [h, h1]
    have : ch '+' ≠ ch '%' := by decide
    show QueryUnescape (ch '+' :: rest) = _
    rw [QueryUnescape_cons _ _ this, if_pos rfl]
  · rw [h]
    show QueryUnescape (ch '%' :: upperhex (c.val / 16) :: upperhex (c.val % 16) :: rest) = _
    rw [QueryUnescape_percent, h1, h2, h3]
    rfl

theorem QueryUnescape_QueryEscape (s : Str) : QueryUnescape (QueryEscape s) = .ok s := by
  induction s with
  | nil => rfl
  | cons c cs ih =>
    simp only [QueryEscape]
    rw [QueryUnescape_escapeByte, ih]
    rfl

theorem cut_append_sep (sep : Byte) (a b : Str) (h : sep ∉ a) :
    cut sep (a ++ sep :: b) = (a, b) := by
  induction a with
  | nil => simp [cut]
  | cons c cs ih =>
    have hc : c ≠ sep := fun e => h (by simp [e])
    have hcs : sep ∉ cs := fun e => h (by simp [e])
    show cut sep (c :: (cs ++ sep :: b)) = _
    rw [cut, if_neg hc, ih hcs]

theorem splitAmp_no_amp (s : Str) (h : ch '&' ∉ s) : splitAmp s = [s] := by
  induction s with
  | nil => rfl
  | cons c cs ih =>
    have hc : c ≠ ch '&' := fun e => h (by simp [e])
    have hcs : ch '&' ∉ cs := fun e => h (by simp [e])
    rw [splitAmp, if_neg hc, ih hcs]

theorem splitAmp_append (a b : Str) (h : ch '&' ∉ a) :
    splitAmp (a ++ ch '&' :: b) = a :: splitAmp b := by
  induction a with
  | nil => simp [splitAmp]
  | cons c cs ih =>
    have hc : c ≠ ch '&' := fun e => h (by simp [e])
    have hcs : ch '&' ∉ cs := fun e => h (by simp [e])
    show splitAmp (c :: (cs ++ ch '&' :: b)) = _
    rw [splitAmp, if_neg hc, ih hcs]

theorem splitAmp_joinAmp (segs : List Str) (hne : segs ≠ [])
    (h : ∀ s ∈ segs, ch '&' ∉ s) : splitAmp (joinAmp segs) = segs := by
  induction segs with
  | nil => exact absurd rfl hne
  | cons s ts ih =>
    cases ts with
    | nil => simpa [joinAmp] using splitAmp_no_amp s (h s (by simp))
    | cons t ts =>
      simp only [joinAmp]
      rw [splitAmp_append _ _ (h s (by simp)), ih (by simp) (fun x hx => h x (by simp [hx]))]

theorem encodePair_no_amp (kv : Str × Str) : ch '&' ∉ encodePair kv := by
  intro hmem
  simp only [encodePair, List.mem_append, List.mem_cons] at hmem
  rcases hmem with h | h | h
  · exact (QueryEscape_no_sep _ _ h).1 rfl
  · exact absurd h (by decide)
  · exact (QueryEscape_no_sep _ _ h).1 rfl

theorem segmentPair_encodePair (kv : Str × Str) : segmentPair (encodePair kv) = some kv := by
  have hsemi : (encodePair kv).contains (ch ';') = false := by
    rw [Bool.eq_false_iff]
    intro hc
    have hmem : ch ';' ∈ encodePair kv := by simpa using hc
    simp only [encodePair, List.mem_append, List.mem_cons] at hmem
    rcases hmem with h | h | h
    · exact (QueryEscape_no_sep _ _ h).2.2 rfl
    · exact absurd h (by decide)
    · exact (QueryEscape_no_sep _ _ h).2.2 rfl
  have hne : encodePair kv ≠ [] := by simp [encodePair]
  have hcut : cut (ch '=') (encodePair kv) = (QueryEscape kv.1, QueryEscape kv.2) :=
    cut_append_sep _ _ _ (fun h => (QueryEscape_no_sep _ _ h).2.1 rfl)
  unfold segmentPair
  rw [hsemi, if_neg (by simp), if_neg hne, hcut]
  simp only [QueryUnescape_QueryEscape]

theorem parseSegment_encodePair (st : Values × Option String) (kv : Str × Str) :
    parseSegment st (encodePair kv) = (Values.Add st.1 kv.1 kv.2, st.2) := by
  have hsemi : (encodePair kv).contains (ch ';') = false := by
    rw [Bool.eq_false_iff]
    intro hc
    have hmem : ch ';' ∈ encodePair kv := by simpa using hc
    simp only [encodePair, List.mem_append, List.mem_cons] at hmem
    rcases hmem with h | h | h
    · exact (QueryEscape_no_sep _ _ h).2.2 rfl
    · exact absurd h (by decide)
    · exact (QueryEscape_no_sep _ _ h).2.2 rfl
  have hne : encodePair kv ≠ [] := by simp [encodePair]
  have hcut : cut (ch '=') (encodePair kv) = (QueryEscape kv.1, QueryEscape kv.2) :=
    cut_append_sep _ _ _ (fun h => (QueryEscape_no_sep _ _ h).2.1 rfl)
  unfold parseSegment
  rw [hsemi, if_neg (by simp), if_neg hne, hcut]
  simp only [QueryUnescape_QueryEscape]

/-- The loop `q.Add(k, v)` over a list of pairs. -/
theorem addParams_eq (q : Values) (params : List (List (Str × Str))) :
    addParams q params = (optionPairs params).foldl (fun m kv => Values.Add m kv.1 kv.2) q := by
  unfold addParams optionPairs
  induction params generalizing q with
  | nil => rfl
  | cons p ps ih => simp only [List.foldl_cons, List.flatten, List.foldl_append, ih]

theorem foldl_parseSegment_encode (ps : List (Str × Str)) : ∀ st : Values × Option String,
    (ps.map encodePair).foldl parseSegment st =
      (ps.foldl (fun m kv => Values.Add m kv.1 kv.2) st.1, st.2) := by
  induction ps with
  | nil => intro st; rfl
  | cons kv ps ih =>
    intro st
    simp only [List.map_cons, List.foldl_cons, parseSegment_encodePair, ih]

theorem ParseQuery_joinAmp (ps : List (Str × Str)) :
    ParseQuery (joinAmp (ps.map encodePair)) =
      (ps.foldl (fun m kv => Values.Add m kv.1 kv.2) [], none) := by
  unfold ParseQuery
  cases ps with
  | nil => rfl
  | cons kv ps =>
    rw [splitAmp_joinAmp _ (by simp)]
    · exact foldl_parseSegment_encode _ _
    · intro s hs
      obtain ⟨x, _, rfl⟩ := List.mem_map.mp hs
      exact encodePair_no_amp x

theorem queryPairs_joinAmp (ps : List (Str × Str)) :
    queryPairs (joinAmp (ps.map encodePair)) = ps := by
  unfold queryPairs
  cases ps with
  | nil => rfl
  | cons kv ps =>
    rw [splitAmp_joinAmp _ (by simp)]
    · rw [List.filterMap_map]
      have : (segmentPair ∘ encodePair) = some := by
        funext x
        exact segmentPair_encodePair x
      rw [this, List.filterMap_some]
    · intro s hs
      obtain ⟨x, _, rfl⟩ := List.mem_map.mp hs
      exact encodePair_no_amp x

theorem parseSegment_fst (st : Values × Option String) (seg : Str) :
    (parseSegment st seg).1 =
      match segmentPair seg with
      | none => st.1
      | some kv => Values.Add st.1 kv.1 kv.2 := by
  unfold parseSegment segmentPair
  by_cases h1 : seg.contains (ch ';') = true
  · rw [if_pos h1, if_pos h1]
  · rw [if_neg h1, if_neg h1]
    by_cases h2 : seg = []
    · rw [if_pos h2, if_pos h2]
    · rw [if_neg h2, if_neg h2]
      cases QueryUnescape (cut (ch '=') seg).1 with
      | error e => rfl
      | ok k =>
        cases QueryUnescape (cut (ch '=') seg).2 with
        | error e => rfl
        | ok v => rfl

theorem foldl_parseSegment_fst (segs : List Str) : ∀ st : Values × Option String,
    (segs.foldl parseSegment st).1 =
      (segs.filterMap segmentPair).foldl (fun m kv => Values.Add m kv.1 kv.2) st.1 := by
  induction segs with
  | nil => intro st; rfl
  | cons seg segs ih =>
    intro st
    rw [List.foldl_cons, ih, parseSegment_fst]
    cases h : segmentPair seg with
    | none => simp [List.filterMap_cons, h]
    | some kv => simp [List.filterMap_cons, h]

theorem ParseQuery_fst (query : Str) :
    (ParseQuery query).1 = (queryPairs query).foldl (fun m kv => Values.Add m kv.1 kv.2) [] := by
  unfold ParseQuery queryPairs
  exact foldl_parseSegment_fst _ _

/-! ## `url.Values` as a map -/

theorem Values.Get_Add (m : Values) (k v key : Str) :
    Values.Get (Values.Add m k v) key =
      if k = key then Values.Get m key ++ [v] else Values.Get m key := by
  induction m with
  | nil =>
    by_cases h : k = key <;> simp [Values.Add, Values.Get, h]
  | cons e m ih =>
    obtain ⟨k', vs⟩ := e
    by_cases h1 : k' = k
    · subst h1
      by_cases h2 : k' = key
      · simp [Values.Add, Values.Get, h2]
      · simp [Values.Add, Values.Get, h2]
    · by_cases h2 : k' = key
      · subst h2
        have : ¬ k = k' := fun e => h1 e.symm
        simp [Values.Add, Values.Get, h1, this]
      · simp only [Values.Add, h1, if_false, Values.Get, h2, ih]

theorem Values.Get_foldl_Add (ps : List (Str × Str)) (key : Str) : ∀ m : Values,
    Values.Get (ps.foldl (fun m kv => Values.Add m kv.1 kv.2) m) key =
      Values.Get m key ++ (ps.filter (fun kv => decide (kv.1 = key))).map Prod.snd := by
  induction ps with
  | nil => intro m; simp
  | cons kv ps ih =>
    intro m
    rw [List.foldl_cons, ih, Values.Get_Add]
    by_cases h : kv.1 = key
    · simp [h, List.filter_cons]
    · simp [h, List.filter_cons]

theorem Values.keys_Add (m : Values) (k v : Str) :
    (Values.Add m k v).map Prod.fst =
      if k ∈ m.map Prod.fst then m.map Prod.fst else m.map Prod.fst ++ [k] := by
  induction m with
  | nil => simp [Values.Add]
  | cons e m ih =>
    obtain ⟨k', vs⟩ := e
    by_cases h1 : k' = k
    · subst h1
      simp [Values.Add]
    · have h1' : ¬ k = k' := fun e => h1 e.symm
      simp only [Values.Add, h1, if_false, List.map_cons, ih, List.mem_cons, h1', false_or]
      split <;> simp

theorem Values.nodup_Add (m : Values) (k v : Str) (h : (m.map Prod.fst).Nodup) :
    ((Values.Add m k v).map Prod.fst).Nodup := by
  rw [Values.keys_Add]
  split
  · exact h
  next hk =>
    rw [List.nodup_append]
    refine ⟨h, List.nodup_singleton _, ?_⟩
    intro a ha hb
    simp only [List.mem_singleton] at hb
    subst hb
    exact hk ha

theorem Values.nodup_foldl_Add (ps : List (Str × Str)) : ∀ m : Values,
    (m.map Prod.fst).Nodup →
    ((ps.foldl (fun m kv => Values.Add m kv.1 kv.2) m).map Prod.fst).Nodup := by
  induction ps with
  | nil => intro m h; exact h
  | cons kv ps ih => intro m h; exact ih _ (Values.nodup_Add m kv.1 kv.2 h)

theorem Values.Get_of_not_mem (m : Values) (key : Str) (h : key ∉ m.map Prod.fst) :
    Values.Get m key = [] := by
  induction m with
  | nil => rfl
  | cons e m ih =>
    obtain ⟨k, vs⟩ := e
    have h1 : k ≠ key := fun e => h (by simp [e])
    have h2 : key ∉ m.map Prod.fst := fun e => h (by simp [e])
    simp only [Values.Get, h1, if_false, ih h2]

theorem filter_key_map (k key : Str) (vs : List Str) :
    (vs.map (fun x => (k, x))).filter (fun kv => decide (kv.1 = key)) =
      if k = key then vs.map (fun x => (k, x)) else [] := by
  by_cases h : k = key
  · rw [if_pos h, List.filter_eq_self]
    intro a ha
    obtain ⟨x, _, rfl⟩ := List.mem_map.mp ha
    simpa using h
  · rw [if_neg h, List.filter_eq_nil_iff]
    intro a ha
    obtain ⟨x, _, rfl⟩ := List.mem_map.mp ha
    simpa using h

theorem flatMap_filter_key (m : Values) (key : Str) (l : List Str) (h : l.Nodup) :
    (l.flatMap (fun k => (Values.Get m k).map (fun x => (k, x)))).filter
        (fun kv => decide (kv.1 = key)) =
      if key ∈ l then (Values.Get m key).map (fun x => (key, x)) else [] := by
  induction l with
  | nil => rfl
  | cons k l ih =>
    have hk : k ∉ l := (List.nodup_cons.mp h).1
    have hl : l.Nodup := (List.nodup_cons.mp h).2
    rw [List.flatMap_cons, List.filter_append, filter_key_map, ih hl]
    by_cases h1 : k = key
    · subst h1
      simp [hk]
    · have h1' : ¬ key = k := fun e => h1 e.symm
      simp [h1, h1']

theorem sortKeys_perm (keys : List Str) : (sortKeys keys).Perm keys :=
  List.perm_insertionSort _ _

theorem Values.pairs_filter (m : Values) (key : Str) (h : (m.map Prod.fst).Nodup) :
    (Values.pairs m).filter (fun kv => decide (kv.1 = key)) =
      (Values.Get m key).map (fun x => (key, x)) := by
  unfold Values.pairs
  rw [flatMap_filter_key m key _ ((sortKeys_perm _).nodup_iff.mpr h)]
  by_cases hk : key ∈ sortKeys (m.map Prod.fst)
  · rw [if_pos hk]
  · rw [if_neg hk, Values.Get_of_not_mem m key (fun e => hk ((sortKeys_perm _).mem_iff.mpr e))]
    rfl

theorem strLe_refl (a : Str) : strLe a a = true := by
  induction a with
  | nil => rfl
  | cons c cs ih => simp [strLe, ih]

theorem strLe_total (a b : Str) : strLe a b = true ∨ strLe b a = true := by
  induction a generalizing b with
  | nil => left; rfl
  | cons x xs ih =>
    cases b with
    | nil => right; rfl
    | cons y ys =>
      simp only [strLe]
      by_cases h1 : x < y
      · simp [h1]
      · by_cases h2 : y < x
        · simp [h2]
        · simp only [h1, h2, if_false]
          exact ih ys

theorem strLe_trans (a b c : Str) (h1 : strLe a b = true) (h2 : strLe b c = true) :
    strLe a c = true := by
  induction a generalizing b c with
  | nil => rfl
  | cons x xs ih =>
    cases b with
    | nil => simp [strLe] at h1
    | cons y ys =>
      cases c with
      | nil => simp [strLe] at h2
      | cons z zs =>
        simp only [strLe] at h1 h2 ⊢
        by_cases hxy : x < y
        · by_cases hyz : y < z
          · have : x < z := lt_trans hxy hyz
            simp [this]
          · by_cases hzy : z < y
            · simp [hyz, hzy] at h2
            · have hyz' : y = z := le_antisymm (not_lt.mp hzy) (not_lt.mp hyz)
              subst hyz'
              simp [hxy]
        · by_cases hyx : y < x
          · simp [hxy, hyx] at h1
          · have hxy' : x = y := le_antisymm (not_lt.mp hyx) (not_lt.mp hxy)
            subst hxy'
            simp only [hxy, if_false] at h1
            by_cases hxz : x < z
            · simp [hxz]
            · by_cases hzx : z < x
              · simp [hxz, hzx] at h2
              · simp only [hxz, hzx, if_false] at h2 ⊢
                exact ih ys zs h1 h2

theorem sortKeys_sorted (keys : List Str) :
    (sortKeys keys).Sorted (fun a b => strLe a b = true) := by
  haveI : IsTotal Str (fun a b => strLe a b = true) := ⟨strLe_total⟩
  haveI : IsTrans Str (fun a b => strLe a b = true) := ⟨strLe_trans⟩
  exact List.sorted_insertionSort _ _

theorem Values.pairs_sorted (m : Values) :
    ((Values.pairs m).map Prod.fst).Pairwise (fun a b => strLe a b = true) := by
  unfold Values.pairs
  rw [List.pairwise_map, List.pairwise_flatMap]
  constructor
  · intro k _
    rw [List.pairwise_map]
    exact List.pairwise_of_forall (fun _ _ => strLe_refl k)
  · refine (sortKeys_sorted _).imp ?_
    intro a b hab x hx y hy
    obtain ⟨_, _, rfl⟩ := List.mem_map.mp hx
    obtain ⟨_, _, rfl⟩ := List.mem_map.mp hy
    exact hab

/-! ## `buildURLParams` -/

theorem buildURLParams_ok (U : UrlLib) (userURL : Str) (params : List (List (Str × Str)))
    (u : URL) (q : Values) (hparse : U.Parse userURL = .ok u)
    (hquery : ParseQuery u.RawQuery = (q, none)) :
    buildURLParams U userURL params =
      (if (addParams q params).length > 0 then
          removeAll (U.String u) (ch '?' :: u.RawQuery) ++
            ch '?' :: Values.Encode (addParams q params)
        else removeAll (U.String u) (ch '?' :: u.RawQuery), none) := by
  unfold buildURLParams
  rw [hparse]
  simp only [hquery, addQueryParams]

theorem merged_eq (u : URL) (q : Values) (params : List (List (Str × Str)))
    (hquery : ParseQuery u.RawQuery = (q, none)) :
    addParams q params =
      (queryPairs u.RawQuery ++ optionPairs params).foldl
        (fun m kv => Values.Add m kv.1 kv.2) [] := by
  have hq : q = (ParseQuery u.RawQuery).1 := by rw [hquery]
  rw [addParams_eq, hq, ParseQuery_fst, List.foldl_append]

theorem merged_nodup (u : URL) (q : Values) (params : List (List (Str × Str)))
    (hquery : ParseQuery u.RawQuery = (q, none)) :
    ((addParams q params).map Prod.fst).Nodup := by
  rw [merged_eq u q params hquery]
  exact Values.nodup_foldl_Add _ [] List.nodup_nil

theorem map_snd_map_key (key : Str) (l : List (Str × Str)) :
    ((l.filter (fun kv => decide (kv.1 = key))).map Prod.snd).map (fun x => (key, x)) =
      l.filter (fun kv => decide (kv.1 = key)) := by
  induction l with
  | nil => rfl
  | cons kv l ih =>
    by_cases h : kv.1 = key
    · rw [List.filter_cons_of_pos (by simpa using h), List.map_cons, List.map_cons, ih, ← h]
    · rw [List.filter_cons_of_neg (by simpa using h), ih]

/-- The merge of `buildURLParams` is additive.  For a target URL that `url.Parse`
accepts and whose query string `url.ParseQuery` accepts, and any list of query-param
options, `buildURLParams` returns the string form of the URL with every occurrence of
`?` + RawQuery deleted, followed, when the merged parameter set is not empty, by `?`
and an encoded query.  That query parses without error, and parsed it holds for each
key every value of the original query string for that key followed by every value the
options supply for it.  Where the encoded query lands in the URL is not part of the
statement: `addQueryParams` writes it at the end of the string. -/
theorem buildURLParams_merge (U : UrlLib) (userURL : Str) (params : List (List (Str × Str)))
    (u : URL) (q : Values) (hparse : U.Parse userURL = .ok u)
    (hquery : ParseQuery u.RawQuery = (q, none)) :
    buildURLParams U userURL params =
      (if (addParams q params).length > 0 then
          removeAll (U.String u) (ch '?' :: u.RawQuery) ++
            ch '?' :: Values.Encode (addParams q params)
        else removeAll (U.String u) (ch '?' :: u.RawQuery), none) ∧
    (ParseQuery (Values.Encode (addParams q params))).2 = none ∧
    ∀ key : Str,
      Values.Get (ParseQuery (Values.Encode (addParams q params))).1 key =
        Values.Get q key ++
          ((optionPairs params).filter (fun kv => decide (kv.1 = key))).map Prod.snd := by
  refine ⟨buildURLParams_ok U userURL params u q hparse hquery, ?_, ?_⟩
  · unfold Values.Encode
    rw [ParseQuery_joinAmp]
  · intro key
    unfold Values.Encode
    rw [ParseQuery_joinAmp, Values.Get_foldl_Add,
      Values.pairs_filter _ _ (merged_nodup u q params hquery)]
    simp only [Values.Get, List.nil_append, List.map_map]
    have : (Prod.snd ∘ fun x : Str => (key, x)) = id := rfl
    rw [this, List.map_id, addParams_eq, Values.Get_foldl_Add]

/-- C5 (code bug).  For `https://x/y?a=1#f` and the option `{b: 2}`, `addQueryParams`
appends the merged query at the end of the string, after the fragment: the URL
produced, `https://x/y#f?a=1&b=2`, has no query string at all (the parser reads
`f?a=1&b=2` as its fragment), so neither the value of `a` nor that of `b` is in it.
For `https://x/y?a=1&b=%zz`, whose query `url.ParseQuery` rejects, `buildURLParams`
returns the empty string and a nil error (request.go line 218), where the sibling
error path (line 212) returns the error. -/
theorem buildURLParams_fragment :
    buildURLParams netUrl (bytes "https://x/y?a=1#f") [[(bytes "b", bytes "2")]] =
      (bytes "https://x/y#f?a=1&b=2", none) ∧
    (netUrl.Parse (bytes "https://x/y#f?a=1&b=2")).map (fun u => (u.RawQuery, u.Fragment)) =
      .ok ([], bytes "f?a=1&b=2") ∧
    Values.Get (ParseQuery (bytes "a=1")).1 (bytes "a") = [bytes "1"] ∧
    buildURLParams netUrl (bytes "https://x/y?a=1&b=%zz") [] = ([], none) := by
  refine ⟨by decide, by decide, by decide, by decide⟩

/-- The additive merge on `https://x/y?a=1` with the option `{a: 2, b: 3}`. -/
theorem buildURLParams_merge_witness :
    buildURLParams netUrl (bytes "https://x/y?a=1") [[(bytes "a", bytes "2"), (bytes "b", bytes "3")]] =
      (bytes "https://x/y?a=1&a=2&b=3", none) ∧
    Values.Get (ParseQuery (bytes "a=1&a=2&b=3")).1 (bytes "a") = [bytes "1", bytes "2"] := by
  have h := buildURLParams_merge netUrl (bytes "https://x/y?a=1")
    [[(bytes "a", bytes "2"), (bytes "b", bytes "3")]]
    { Scheme := bytes "https", Host := bytes "x", Path := bytes "/y", RawQuery := bytes "a=1" }
    [(bytes "a", [bytes "1"])] (by decide) (by decide)
  refine ⟨h.1.trans (by decide), ?_⟩
  have h2 := h.2.2 (bytes "a")
  have e : Values.Encode (addParams [(bytes "a", [bytes "1"])]
      [[(bytes "a", bytes "2"), (bytes "b", bytes "3")]]) = bytes "a=1&a=2&b=3" := by decide
  rw [e] at h2
  exact h2.trans (by decide)

/-- C9 (amended). For a target URL that `url.Parse` accepts and whose query string
`url.ParseQuery` accepts, `buildURLParams` writes the key-value pairs of the result,
existing and added alike, in ascending order of their keys, not in their original
order; for each key the pairs written are the existing pairs of that key followed by
the added ones, with their values, in their original order.  In particular
`https://x/y?a=1` with option `{b: 2}` yields exactly `https://x/y?a=1&b=2`. -/
theorem buildURLParams_sorted (U : UrlLib) (userURL : Str) (params : List (List (Str × Str)))
    (u : URL) (q : Values) (hparse : U.Parse userURL = .ok u)
    (hquery : ParseQuery u.RawQuery = (q, none)) :
    buildURLParams U userURL params =
      (if (addParams q params).length > 0 then
          removeAll (U.String u) (ch '?' :: u.RawQuery) ++
            ch '?' :: Values.Encode (addParams q params)
        else removeAll (U.String u) (ch '?' :: u.RawQuery), none) ∧
    ((queryPairs (Values.Encode (addParams q params))).map Prod.fst).Pairwise
      (fun a b => strLe a b = true) ∧
    (∀ key : Str,
      (queryPairs (Values.Encode (addParams q params))).filter (fun kv => decide (kv.1 = key)) =
        (queryPairs u.RawQuery ++ optionPairs params).filter (fun kv => decide (kv.1 = key))) ∧
    buildURLParams netUrl (bytes "https://x/y?a=1") [[(bytes "b", bytes "2")]] =
      (bytes "https://x/y?a=1&b=2", none) := by
  refine ⟨buildURLParams_ok U userURL params u q hparse hquery, ?_, ?_, by decide⟩
  · unfold Values.Encode
    rw [queryPairs_joinAmp]
    exact Values.pairs_sorted _
  · intro key
    unfold Values.Encode
    rw [queryPairs_joinAmp, Values.pairs_filter _ _ (merged_nodup u q params hquery),
      merged_eq u q params hquery, Values.Get_foldl_Add]
    simp only [Values.Get, List.nil_append]
    exact map_snd_map_key key _

/-- Counterexample to C9 as stated: `https://x/y?b=1` with the option `{a: 2}`, whose
key does not occur in the query, yields `https://x/y?a=2&b=1`: the added pair is
written before the existing one. -/
theorem buildURLParams_reorders :
    buildURLParams netUrl (bytes "https://x/y?b=1") [[(bytes "a", bytes "2")]] =
      (bytes "https://x/y?a=2&b=1", none) ∧
    bytes "https://x/y?a=2&b=1" ≠ bytes "https://x/y?b=1&a=2" := by
  refine ⟨by decide, by decide⟩

/-- Witness of C9 (amended): `https://x/y?b=1&a=0` with the option `{a: 2}`. -/
theorem buildURLParams_sorted_witness :
    buildURLParams netUrl (bytes "https://x/y?b=1&a=0") [[(bytes "a", bytes "2")]] =
      (bytes "https://x/y?a=0&a=2&b=1", none) ∧
    queryPairs (bytes "a=0&a=2&b=1") =
      [(bytes "a", bytes "0"), (bytes "a", bytes "2"), (bytes "b", bytes "1")] := by
  have h := buildURLParams_sorted netUrl (bytes "https://x/y?b=1&a=0") [[(bytes "a", bytes "2")]]
    { Scheme := bytes "https", Host := bytes "x", Path := bytes "/y", RawQuery := bytes "b=1&a=0" }
    [(bytes "b", [bytes "1"]), (bytes "a", [bytes "0"])] (by decide) (by decide)
  exact ⟨h.1.trans (by decide), by decide⟩

end request
